import Mathlib

/-! # Verification of the static-frontend proxy / auth-bridge module

Shallow embedding of `src/elysia/api/routes/static_frontend.py` (the reverse
proxies, the auth bridge endpoints and the session-cookie codec), together
with models of the Python standard-library routines the module calls
(`base64.urlsafe_b64decode`, `json.loads`, `urllib.parse.quote` / `unquote` /
`parse_qs` / `urlencode` / `urlparse`) and of the browser-side encoder that
the module's bootstrap page embeds (`JSON.stringify` + base64url).

Conventions:
* Python byte strings are `List Nat` with every element `< 256`.
* Python `str` is Lean `String` (a sequence of Unicode scalar values).
* Modelling caveats are stated in the doc comment of each definition.
-/

namespace StaticFrontend

/-! ## Bytes and UTF-8

Model of Python's `str.encode("utf-8")` / `bytes.decode("utf-8")` (strict
mode): characters encode to 1-4 bytes; the strict decoder rejects
continuation-byte errors, truncated sequences, overlong encodings,
surrogates and values above U+10FFFF, exactly as CPython's strict UTF-8
codec does (the second-byte range checks below are CPython's). -/

/-- UTF-8 encoding of a single Unicode scalar value (Python `chr(n).encode()`). -/
def utf8EncodeChar (c : Char) : List Nat :=
  if c.toNat < 0x80 then [c.toNat]
  else if c.toNat < 0x800 then [0xC0 + c.toNat / 64, 0x80 + c.toNat % 64]
  else if c.toNat < 0x10000 then
    [0xE0 + c.toNat / 4096, 0x80 + c.toNat / 64 % 64, 0x80 + c.toNat % 64]
  else
    [0xF0 + c.toNat / 262144, 0x80 + c.toNat / 4096 % 64, 0x80 + c.toNat / 64 % 64,
      0x80 + c.toNat % 64]

/-- UTF-8 encoding of a string (Python `s.encode("utf-8")`). -/
def utf8Encode (s : List Char) : List Nat :=
  s.flatMap utf8EncodeChar

/-- A continuation byte `0x80..0xBF`. -/
def isCont (b : Nat) : Bool := 0x80 ≤ b && b < 0xC0

/-- Decode one UTF-8 sequence from the front of a byte list; returns the
character and the remaining bytes, or `none` on anything CPython's strict
decoder rejects. -/
def utf8DecodeOne : List Nat → Option (Char × List Nat)
  | [] => none
  | b :: bs =>
    if b < 0x80 then
      some (Char.ofNat b, bs)
    else if b < 0xC2 then none
    else if b < 0xE0 then
      match bs with
      | b1 :: bs1 =>
        if isCont b1 then some (Char.ofNat ((b - 0xC0) * 64 + (b1 - 0x80)), bs1)
        else none
      | _ => none
    else if b < 0xF0 then
      match bs with
      | b1 :: b2 :: bs2 =>
        -- CPython: lead 0xE0 requires b1 in 0xA0..0xBF; lead 0xED requires
        -- b1 in 0x80..0x9F (excludes surrogates); otherwise b1 in 0x80..0xBF.
        if (if b = 0xE0 then 0xA0 ≤ b1 && b1 < 0xC0
            else if b = 0xED then 0x80 ≤ b1 && b1 < 0xA0
            else isCont b1) && isCont b2 then
          some (Char.ofNat ((b - 0xE0) * 4096 + (b1 - 0x80) * 64 + (b2 - 0x80)), bs2)
        else none
      | _ => none
    else if b < 0xF5 then
      match bs with
      | b1 :: b2 :: b3 :: bs3 =>
        -- CPython: lead 0xF0 requires b1 in 0x90..0xBF; lead 0xF4 requires
        -- b1 in 0x80..0x8F; otherwise b1 in 0x80..0xBF.
        if (if b = 0xF0 then 0x90 ≤ b1 && b1 < 0xC0
            else if b = 0xF4 then 0x80 ≤ b1 && b1 < 0x90
            else isCont b1) && isCont b2 && isCont b3 then
          some (Char.ofNat ((b - 0xF0) * 262144 + (b1 - 0x80) * 4096 +
                            (b2 - 0x80) * 64 + (b3 - 0x80)), bs3)
        else none
      | _ => none
    else none

/-- Strict UTF-8 decoding of a whole byte list (Python
`bytes.decode("utf-8")`): `none` models a raised `UnicodeDecodeError`.
The `fuel` argument makes the recursion structural; `utf8DecodeOne`
always consumes at least one byte, so `fuel = length` suffices. -/
def utf8DecodeF : Nat → List Nat → Option (List Char)
  | _, [] => some []
  | 0, _ :: _ => none
  | fuel + 1, b :: bs =>
    match utf8DecodeOne (b :: bs) with
    | some (c, rest) => (utf8DecodeF fuel rest).map (c :: ·)
    | none => none

/-- Strict UTF-8 decoding (Python `bytes.decode("utf-8")`). -/
def utf8Decode (bs : List Nat) : Option (List Char) :=
  utf8DecodeF bs.length bs

/-- Lossy UTF-8 decoding, model of Python `errors="replace"`: each
undecodable position yields U+FFFD.  Where CPython replaces a maximal
invalid subpart by a single U+FFFD, this model replaces byte by byte; the
two agree on every input that is valid UTF-8 (the only case exercised
here). -/
def utf8DecodeReplaceF : Nat → List Nat → List Char
  | _, [] => []
  | 0, _ :: _ => []
  | fuel + 1, b :: bs =>
    match utf8DecodeOne (b :: bs) with
    | some (c, rest) => c :: utf8DecodeReplaceF fuel rest
    | none => Char.ofNat 0xFFFD :: utf8DecodeReplaceF fuel bs

/-- Lossy UTF-8 decoding (Python `bytes.decode("utf-8", errors="replace")`). -/
def utf8DecodeReplace (bs : List Nat) : List Char :=
  utf8DecodeReplaceF bs.length bs

/-! ## Base64 / base64url

The module's cookie is written browser-side by `setAuthCookie` in
`_session_bootstrap_html`: `btoa` on the UTF-8 bytes, then
`+ -> -`, `/ -> _`, and trailing `=` stripped (a plain base64url encoder
without padding).  It is read server-side by `base64.urlsafe_b64decode`
after `_decode_cookie_value` restores the padding. -/

/-- The base64url alphabet (what `toBase64URL` in the bootstrap page
produces: standard `btoa` output with `+` and `/` substituted). -/
def b64UrlChar (v : Nat) : Char :=
  if v < 26 then Char.ofNat (65 + v)
  else if v < 52 then Char.ofNat (97 + (v - 26))
  else if v < 62 then Char.ofNat (48 + (v - 52))
  else if v = 62 then '-'
  else '_'

/-- Index of a character in the standard base64 alphabet
(`A-Z a-z 0-9 + /`), the alphabet `base64.b64decode` accepts after
`urlsafe_b64decode` has translated `-` and `_`. -/
def b64Index (c : Char) : Option Nat :=
  let n := c.toNat
  if 65 ≤ n ∧ n ≤ 90 then some (n - 65)
  else if 97 ≤ n ∧ n ≤ 122 then some (26 + (n - 97))
  else if 48 ≤ n ∧ n ≤ 57 then some (52 + (n - 48))
  else if c = '+' then some 62
  else if c = '/' then some 63
  else none

/-- The 6-bit groups of a byte list, without padding: 3 bytes give 4
sextets, a trailing byte gives 2, two trailing bytes give 3 (low bits
zero-filled), exactly as `btoa` with the `=` stripped. -/
def b64Sextets : List Nat → List Nat
  | [] => []
  | [b0] => [b0 / 4, b0 % 4 * 16]
  | [b0, b1] => [b0 / 4, b0 % 4 * 16 + b1 / 16, b1 % 16 * 4]
  | b0 :: b1 :: b2 :: bs =>
    b0 / 4 :: (b0 % 4 * 16 + b1 / 16) :: (b1 % 16 * 4 + b2 / 64) :: b2 % 64 ::
      b64Sextets bs

/-- Base64url encoding without padding: the encoding `toBase64URL` in the
bootstrap page performs (UTF-8 handling is done by its caller). -/
def b64UrlEncodeNoPad (bs : List Nat) : List Char :=
  (b64Sextets bs).map b64UrlChar

/-- Inverse of `b64Sextets` on well-formed input: turn 6-bit groups back
into bytes (4 sextets to 3 bytes, trailing 3 to 2, trailing 2 to 1; a
single trailing sextet cannot occur, `binascii` rejects it upstream). -/
def b64UnSextets : List Nat → Option (List Nat)
  | [] => some []
  | [_] => none
  | [v0, v1] => some [v0 * 4 + v1 / 16]
  | [v0, v1, v2] => some [v0 * 4 + v1 / 16, v1 % 16 * 16 + v2 / 4]
  | v0 :: v1 :: v2 :: v3 :: vs =>
    (b64UnSextets vs).map
      ((v0 * 4 + v1 / 16) :: (v1 % 16 * 16 + v2 / 4) :: (v2 % 4 * 64 + v3) :: ·)

/-- The `-`/`_` to `+`/`/` translation `urlsafe_b64decode` applies first. -/
def b64UrlTranslate (c : Char) : Char :=
  if c = '-' then '+' else if c = '_' then '/' else c

/-- Model of `base64.urlsafe_b64decode` (as `_decode_cookie_value` and
`auth_session` call it): translate `-`/`_` to `+`/`/`, discard characters
outside the standard alphabet and `=` (CPython `b64decode` with
`validate=False` discards them), require all `=` at the end and a total
length that is a multiple of 4 with a data length not `1 (mod 4)`
(otherwise `binascii.Error` is raised, modelled as `none`), then decode
the 6-bit groups.  Exotic `binascii` tolerances for pad counts other than
the canonical ones are not modelled. -/
def pyUrlsafeB64Decode (s : List Char) : Option (List Nat) :=
  let t := s.map b64UrlTranslate
  let filtered := t.filter (fun c => (b64Index c).isSome || c = '=')
  let dataPart := filtered.takeWhile (· ≠ '=')
  let padPart := filtered.drop dataPart.length
  if padPart.all (· = '=') && (dataPart.length + padPart.length) % 4 = 0 &&
      decide (dataPart.length % 4 ≠ 1) then
    b64UnSextets (dataPart.map (fun c => (b64Index c).getD 0))
  else none

/-! ## Python string primitives

Lean's `String.startsWith`/`splitOn`/`toLower` are byte-position loops
that the kernel cannot evaluate; the models below work on the character
list directly and mirror the Python `str` methods the module calls. -/

/-- Python `s.startswith(pre)`. -/
def pyStartsWith (s pre : String) : Bool := pre.data.isPrefixOf s.data

/-- Python `s.lower()` (ASCII case folding suffices for header names). -/
def strToLower (s : String) : String := (s.data.map Char.toLower).asString

/-- Join character-list pieces with a separator character
(`sep.join(pieces)`). -/
def intercalChar (sep : Char) : List (List Char) → List Char
  | [] => []
  | [p] => p
  | p :: q :: rest => p ++ sep :: intercalChar sep (q :: rest)

/-! ## JSON values

The session object is JSON.  `Json` is a mutual inductive (rather than a
nested one) so that every operation below is structurally recursive and
therefore evaluates inside the kernel.  Numbers are modelled as integers:
the module only ever handles integral JSON numbers (`exp`, `expires_at`,
`expires_in`); fractional/exponent syntax and the non-standard
`NaN`/`Infinity` literals Python accepts are outside the model, as are
JSON strings containing lone UTF-16 surrogates (unrepresentable in a Lean
`String`). -/

mutual
inductive Json where
  | null : Json
  | bool : Bool → Json
  | num : Int → Json
  | str : String → Json
  | arr : JsonList → Json
  | obj : JsonObj → Json
deriving DecidableEq
inductive JsonList where
  | nil : JsonList
  | cons : Json → JsonList → JsonList
deriving DecidableEq
inductive JsonObj where
  | nil : JsonObj
  | cons : String → Json → JsonObj → JsonObj
deriving DecidableEq
end

/-- Build a `JsonList` from a `List`. -/
def JsonList.ofList : List Json → JsonList
  | [] => .nil
  | x :: xs => .cons x (JsonList.ofList xs)

/-- Build a `JsonObj` from a list of members. -/
def JsonObj.ofList : List (String × Json) → JsonObj
  | [] => .nil
  | (k, v) :: m => .cons k v (JsonObj.ofList m)

/-- Convenience constructor for object literals. -/
def Json.mkObj (l : List (String × Json)) : Json := .obj (JsonObj.ofList l)

/-- Convenience constructor for array literals. -/
def Json.mkArr (l : List Json) : Json := .arr (JsonList.ofList l)

/-- Whether an object (viewed as a Python `dict`) binds a key. -/
def JsonObj.hasKey : JsonObj → String → Bool
  | .nil, _ => false
  | .cons k _ m, key => k = key || JsonObj.hasKey m key

/-- First binding of a key (Python `dict` lookup; parsed objects have
unique keys, so the first binding is the only one). -/
def JsonObj.get : JsonObj → String → Option Json
  | .nil, _ => none
  | .cons k v m, key => if k = key then some v else JsonObj.get m key

/-- Python `d[k] = v` on a `dict`: replace in place if the key exists
(keeping its position), otherwise append. -/
def JsonObj.dictSet : JsonObj → String → Json → JsonObj
  | .nil, k, v => .cons k v .nil
  | .cons k0 v0 m, k, v =>
    if k0 = k then .cons k0 v m else .cons k0 v0 (JsonObj.dictSet m k v)

/-- Fold a member list into a Python `dict` left to right (later duplicate
keys overwrite earlier ones, keeping the first occurrence's position). -/
def JsonObj.dictAddAll (acc : JsonObj) : JsonObj → JsonObj
  | .nil => acc
  | .cons k v m => JsonObj.dictAddAll (JsonObj.dictSet acc k v) m

/-- The `dict` built from a parsed member list (`json.loads` object
semantics). -/
def JsonObj.dictOfMembers (m : JsonObj) : JsonObj := JsonObj.dictAddAll .nil m

/-- Keys are pairwise distinct. -/
def JsonObj.nodupKeys : JsonObj → Bool
  | .nil => true
  | .cons k _ m => !(JsonObj.hasKey m k) && JsonObj.nodupKeys m

mutual
/-- A `Json` value in the fragment the codec round-trips: every object has
distinct keys (a Python `dict` / JS object cannot hold duplicates) and
every number is an exact double (`|n| <= 2^53`, so `JSON.stringify` prints
it verbatim). -/
def Json.validb : Json → Bool
  | .null => true
  | .bool _ => true
  | .num n => n.natAbs ≤ 9007199254740992
  | .str _ => true
  | .arr xs => JsonList.validb xs
  | .obj m => JsonObj.nodupKeys m && JsonObj.validb m
def JsonList.validb : JsonList → Bool
  | .nil => true
  | .cons x xs => Json.validb x && JsonList.validb xs
def JsonObj.validb : JsonObj → Bool
  | .nil => true
  | .cons _ v m => Json.validb v && JsonObj.validb m
end

/-- Python truthiness (`if x:`) of a decoded JSON value: `None`, `False`,
`0`, `""`, `[]` and `{}` are falsy. -/
def Json.pyTruthy : Json → Bool
  | .null => false
  | .bool b => b
  | .num n => decide (n ≠ 0)
  | .str s => decide (s ≠ "")
  | .arr .nil => false
  | .arr (.cons _ _) => true
  | .obj .nil => false
  | .obj (.cons _ _ _) => true

/-- Python truthiness of an optional value (`None` is falsy). -/
def pyTruthyOpt : Option Json → Bool
  | none => false
  | some j => j.pyTruthy

/-- Python `x.get(k)` where `x` came from `json.loads`: raises
`AttributeError` (modelled as `Except.error`) unless `x` is a dict. -/
def Json.dictGet : Json → String → Except Unit (Option Json)
  | .obj m, k => .ok (JsonObj.get m k)
  | _, _ => .error ()

/-! ## JSON serialization (model of `JSON.stringify`)

The bootstrap page serializes the session with `JSON.stringify(session)`:
no inserted whitespace, members in insertion order, strings escaped with
`\"`, `\\`, `\b`, `\t`, `\n`, `\f`, `\r` and `\u00xx` (lowercase hex) for
the remaining control characters, all other characters emitted verbatim. -/

/-- Decimal digit character. -/
def digitChar (n : Nat) : Char := Char.ofNat (48 + n)

/-- Lowercase hexadecimal digit character. -/
def hexChar (n : Nat) : Char :=
  if n < 10 then Char.ofNat (48 + n) else Char.ofNat (87 + n)

/-- Decimal digits of a natural number, most significant first (fuelled so
that the recursion is structural; `fuel = n + 1` always suffices). -/
def natDigitsF : Nat → Nat → List Char → List Char
  | 0, _, acc => acc
  | fuel + 1, n, acc =>
    let acc' := digitChar (n % 10) :: acc
    if n / 10 = 0 then acc' else natDigitsF fuel (n / 10) acc'

/-- Decimal digits of a natural number (`String.fromNat` / what
`JSON.stringify` and Python `str` print for a machine-exact integer). -/
def natDigits (n : Nat) : List Char := natDigitsF (n + 1) n []

/-- Decimal notation of an integer. -/
def intDigits (n : Int) : List Char :=
  if n < 0 then '-' :: natDigits n.natAbs else natDigits n.toNat

/-- `JSON.stringify` escape of one string character. -/
def escapeChar (c : Char) : List Char :=
  if c = '\"' then ['\\', '\"']
  else if c = '\\' then ['\\', '\\']
  else if c = Char.ofNat 8 then ['\\', 'b']
  else if c = Char.ofNat 9 then ['\\', 't']
  else if c = Char.ofNat 10 then ['\\', 'n']
  else if c = Char.ofNat 12 then ['\\', 'f']
  else if c = Char.ofNat 13 then ['\\', 'r']
  else if c.toNat < 0x20 then
    ['\\', 'u', '0', '0', hexChar (c.toNat / 16), hexChar (c.toNat % 16)]
  else [c]

/-- Escape a whole string body. -/
def escList (s : List Char) : List Char := s.flatMap escapeChar

/-- Serialized (quoted and escaped) JSON string. -/
def serStr (s : String) : List Char := '\"' :: (escList s.data ++ ['\"'])

mutual
/-- Model of `JSON.stringify` (and of Python `json.dumps` with
`separators=(",", ":")` on the same value). -/
def Json.ser : Json → List Char
  | .null => 'n' :: ['u', 'l', 'l']
  | .bool true => 't' :: ['r', 'u', 'e']
  | .bool false => 'f' :: ['a', 'l', 's', 'e']
  | .num n => intDigits n
  | .str s => serStr s
  | .arr xs => '[' :: (Json.serElems xs ++ [']'])
  | .obj m => Char.ofNat 123 :: (Json.serMembers m ++ [Char.ofNat 125])
/-- Serialization of an array body (elements joined with commas). -/
def Json.serElems : JsonList → List Char
  | .nil => []
  | .cons x xs => Json.ser x ++ Json.serElemsTail xs
/-- Serialization of the remaining elements, each preceded by a comma. -/
def Json.serElemsTail : JsonList → List Char
  | .nil => []
  | .cons x xs => ',' :: (Json.ser x ++ Json.serElemsTail xs)
/-- Serialization of an object body (members joined with commas). -/
def Json.serMembers : JsonObj → List Char
  | .nil => []
  | .cons k v m => serStr k ++ ':' :: Json.ser v ++ Json.serMembersTail m
/-- Serialization of the remaining members, each preceded by a comma. -/
def Json.serMembersTail : JsonObj → List Char
  | .nil => []
  | .cons k v m => ',' :: (serStr k ++ ':' :: Json.ser v ++ Json.serMembersTail m)
end

/-- `JSON.stringify` output as a `String`. -/
def jsonSerialize (j : Json) : String := (Json.ser j).asString

/-! ## JSON parsing (model of Python `json.loads`)

A recursive-descent parser over the character list, following the JSON
grammar that `json.loads` implements: optional whitespace (space, tab,
newline, carriage return) around tokens, strict strings (unescaped
control characters rejected), objects built with `dict` semantics (a
duplicate key keeps the first occurrence's position with the last value).
Deliberate model restrictions, none of which the module's data exercises:
fractional/exponent numbers and `NaN`/`Infinity`/`-Infinity` are rejected
rather than parsed as floats, and `\uXXXX` escapes of lone surrogates are
rejected rather than materialized as unpaired UTF-16 code units. -/

/-- JSON insignificant whitespace (Python `json.decoder.WHITESPACE_STR`). -/
def jsonWs (c : Char) : Bool := c = ' ' || c = '\t' || c = '\n' || c = '\r'

/-- Value of a hexadecimal digit (either case), as in `\uXXXX` escapes. -/
def hexDigitVal (c : Char) : Option Nat :=
  let n := c.toNat
  if 48 ≤ n ∧ n ≤ 57 then some (n - 48)
  else if 97 ≤ n ∧ n ≤ 102 then some (n - 87)
  else if 65 ≤ n ∧ n ≤ 70 then some (n - 55)
  else none

/-- The single-character JSON escapes (`\\x` for `x` not `u`). -/
def jsonEscapeChar (e : Char) : Option Char :=
  if e = '\"' then some '\"'
  else if e = '\\' then some '\\'
  else if e = '/' then some '/'
  else if e = 'b' then some (Char.ofNat 8)
  else if e = 'f' then some (Char.ofNat 12)
  else if e = 'n' then some (Char.ofNat 10)
  else if e = 'r' then some (Char.ofNat 13)
  else if e = 't' then some (Char.ofNat 9)
  else none

/-- Decode one element of a JSON string body: the closing quote yields
`(none, rest)`, a raw character or an escape yields `(some c, rest)`,
anything invalid yields `none` (an unescaped control character, a bad
escape, or a `\\uXXXX` lone surrogate — see the section comment). -/
def parseStringTok : List Char → Option (Option Char × List Char)
  | [] => none
  | c :: rest =>
    if c = '\"' then some (none, rest)
    else if c = '\\' then
      match rest with
      | [] => none
      | e :: rest1 =>
        if e = 'u' then
          match rest1 with
          | h1 :: h2 :: h3 :: h4 :: rest2 =>
            match hexDigitVal h1, hexDigitVal h2, hexDigitVal h3, hexDigitVal h4 with
            | some v1, some v2, some v3, some v4 =>
              let v := v1 * 4096 + v2 * 256 + v3 * 16 + v4
              if 0xD800 ≤ v ∧ v < 0xDC00 then
                -- high surrogate: must pair with a following low surrogate
                match rest2 with
                | e2 :: u2 :: g1 :: g2 :: g3 :: g4 :: rest3 =>
                  if e2 = '\\' ∧ u2 = 'u' then
                    match hexDigitVal g1, hexDigitVal g2, hexDigitVal g3,
                        hexDigitVal g4 with
                    | some w1, some w2, some w3, some w4 =>
                      let w := w1 * 4096 + w2 * 256 + w3 * 16 + w4
                      if 0xDC00 ≤ w ∧ w < 0xE000 then
                        some (some (Char.ofNat
                          (0x10000 + (v - 0xD800) * 1024 + (w - 0xDC00))), rest3)
                      else none
                    | _, _, _, _ => none
                  else none
                | _ => none
              else if 0xDC00 ≤ v ∧ v < 0xE000 then none
              else some (some (Char.ofNat v), rest2)
            | _, _, _, _ => none
          | _ => none
        else
          match jsonEscapeChar e with
          | some ec => some (some ec, rest1)
          | none => none
    else if c.toNat < 0x20 then none   -- strict mode rejects raw control chars
    else some (some c, rest)

/-- The string-body loop: collect decoded characters until the closing
quote.  `fuel` makes the recursion structural; every token consumes at
least one character, so `fuel = length` suffices. -/
def parseStringBodyF : Nat → List Char → Option (List Char × List Char)
  | 0, _ => none
  | fuel + 1, l =>
    match parseStringTok l with
    | none => none
    | some (none, rest) => some ([], rest)
    | some (some c, rest) =>
      (parseStringBodyF fuel rest).map fun (s, r) => (c :: s, r)

/-- Parse the body of a JSON string after the opening quote, returning the
unescaped content and the input after the closing quote. -/
def parseStringBody (l : List Char) : Option (List Char × List Char) :=
  parseStringBodyF l.length l

/-- Numeric value of a digit run. -/
def digitsVal (l : List Char) : Nat :=
  l.foldl (fun a c => 10 * a + (c.toNat - 48)) 0

/-- Parse an unsigned JSON integer: `0` or a nonzero digit followed by
digits; a following `.`/`e`/`E` would make it a float, which the model
rejects (see section comment). -/
def parseNatToken (l : List Char) : Option (Nat × List Char) :=
  let digs := l.takeWhile Char.isDigit
  match digs with
  | [] => none
  | d :: ds =>
    if d = '0' ∧ ds ≠ [] then none   -- leading zero, not in the JSON grammar
    else
      let rest := l.drop digs.length
      match rest with
      | c :: _ => if c = '.' ∨ c = 'e' ∨ c = 'E' then none
                  else some (digitsVal digs, rest)
      | [] => some (digitsVal digs, rest)

/-- Parse a JSON integer with optional leading minus sign. -/
def parseIntToken (l : List Char) : Option (Int × List Char) :=
  if l.headD ' ' = '-' then
    (parseNatToken l.tail).map fun (n, r) => (-(n : Int), r)
  else (parseNatToken l).map fun (n, r) => ((n : Int), r)

/-- Parse a scalar JSON value (string, literal, or number) at the head of
the input.  Factored out of `parseValueF` so that the recursive parser's
body stays small. -/
def parseScalar (l : List Char) : Option (Json × List Char) :=
  match l with
  | [] => none
  | c :: rest =>
    if c = '\"' then
      (parseStringBody rest).map fun (s, r) => (Json.str s.asString, r)
    else if c = 't' then
      match rest with
      | 'r' :: 'u' :: 'e' :: r => some (Json.bool true, r)
      | _ => none
    else if c = 'f' then
      match rest with
      | 'a' :: 'l' :: 's' :: 'e' :: r => some (Json.bool false, r)
      | _ => none
    else if c = 'n' then
      match rest with
      | 'u' :: 'l' :: 'l' :: r => some (Json.null, r)
      | _ => none
    else if c = '-' ∨ c.isDigit then
      (parseIntToken l).map fun (n, r) => (Json.num n, r)
    else none

mutual
/-- Parse one JSON value at the head of the input (no leading whitespace).
`fuel` makes the recursion structural; the top level supplies
`2 * length + 2`, which cannot run out before the input does, since every
two fuel steps consume at least one character. -/
def parseValueF : Nat → List Char → Option (Json × List Char)
  | 0, _ => none
  | fuel + 1, l =>
    match l with
    | [] => none
    | c :: rest =>
      if c = Char.ofNat 123 then
        match rest.dropWhile jsonWs with
        | c1 :: r2 =>
          if c1 = Char.ofNat 125 then some (Json.obj .nil, r2)
          else
            (parseMembersF fuel (c1 :: r2)).map fun (m, r) =>
              (Json.obj (JsonObj.dictOfMembers m), r)
        | [] => none
      else if c = '[' then
        match rest.dropWhile jsonWs with
        | c1 :: r2 =>
          if c1 = ']' then some (Json.arr .nil, r2)
          else (parseElemsF fuel (c1 :: r2)).map fun (vs, r) => (Json.arr vs, r)
        | [] => none
      else parseScalar (c :: rest)
/-- Parse the members of a non-empty array body, positioned at the first
element (whitespace already skipped); consumes the closing bracket. -/
def parseElemsF : Nat → List Char → Option (JsonList × List Char)
  | 0, _ => none
  | fuel + 1, l =>
    match parseValueF fuel l with
    | none => none
    | some (v, r1) =>
      match r1.dropWhile jsonWs with
      | c :: r2 =>
        if c = ',' then
          (parseElemsF fuel (r2.dropWhile jsonWs)).map fun (vs, r) =>
            (JsonList.cons v vs, r)
        else if c = ']' then some (JsonList.cons v .nil, r2)
        else none
      | [] => none
/-- Parse the members of a non-empty object body, positioned at the first
key (whitespace already skipped); consumes the closing brace. -/
def parseMembersF : Nat → List Char → Option (JsonObj × List Char)
  | 0, _ => none
  | fuel + 1, l =>
    match l with
    | c :: rest =>
      if c = '\"' then
        match parseStringBody rest with
        | some (k, r1) =>
          match r1.dropWhile jsonWs with
          | c1 :: r2 =>
            if c1 = ':' then
              match parseValueF fuel (r2.dropWhile jsonWs) with
              | some (v, r3) =>
                match r3.dropWhile jsonWs with
                | c2 :: r4 =>
                  if c2 = ',' then
                    (parseMembersF fuel (r4.dropWhile jsonWs)).map fun (m, r) =>
                      (JsonObj.cons k.asString v m, r)
                  else if c2 = Char.ofNat 125 then
                    some (JsonObj.cons k.asString v .nil, r4)
                  else none
                | [] => none
              | none => none
            else none
          | [] => none
        | none => none
      else none
    | [] => none
end

/-- `json.loads` on a character list: skip surrounding whitespace, parse
one value, require the input to be exhausted. -/
def jsonParseChars (l : List Char) : Option Json :=
  let l1 := l.dropWhile jsonWs
  match parseValueF (2 * l1.length + 2) l1 with
  | some (j, r) => if r.dropWhile jsonWs = [] then some j else none
  | none => none

/-- Model of Python `json.loads` on a `str`. -/
def jsonParse (s : String) : Option Json := jsonParseChars s.data

/-! ## Percent-encoding (model of `urllib.parse` quote/unquote)

`_decode_cookie_value` calls `urllib.parse.unquote`, `auth_authorize`
round-trips query strings through `parse_qs`/`urlencode` (which use the
`quote_plus`/`unquote_plus` variants), and `auth_callback` percent-encodes
error strings with `quote`. -/

/-- Uppercase hexadecimal digit character (`urllib` escapes use uppercase). -/
def hexUpperChar (n : Nat) : Char :=
  if n < 10 then Char.ofNat (48 + n) else Char.ofNat (55 + n)

/-- A byte `urllib.parse.quote` never escapes: `A-Z a-z 0-9 _ . - ~`. -/
def isAlwaysSafeByte (b : Nat) : Bool :=
  (65 ≤ b && b ≤ 90) || (97 ≤ b && b ≤ 122) || (48 ≤ b && b ≤ 57) ||
    b = 95 || b = 46 || b = 45 || b = 126

/-- `%XX` escape of one byte. -/
def percentByte (b : Nat) : List Char :=
  ['%', hexUpperChar (b / 16), hexUpperChar (b % 16)]

/-- Model of `urllib.parse.quote(s, safe)`: UTF-8 encode, keep always-safe
bytes and bytes whose character is in `safe` verbatim, `%XX`-escape the
rest. -/
def pyQuoteWith (safe : List Char) (s : String) : String :=
  ((utf8Encode s.data).flatMap fun b =>
    if isAlwaysSafeByte b || safe.any (fun c => c.toNat = b) then [Char.ofNat b]
    else percentByte b).asString

/-- `urllib.parse.quote` with its default `safe="/"` (as `auth_callback`
and `auth_sync_profile` call it). -/
def pyQuote (s : String) : String := pyQuoteWith ['/'] s

/-- `urllib.parse.quote` with `safe=""`: every reserved byte escaped.  This
is the canonical percent-encoding of a cookie value ("percent-encoded
JSON" in the legacy cookie format). -/
def pyQuoteAll (s : String) : String := pyQuoteWith [] s

/-- Model of `urllib.parse.quote_plus(s)` (the `urlencode` default
`quote_via`): like `quote` with `safe=""` but a space becomes `+`. -/
def pyQuotePlus (s : String) : String :=
  ((utf8Encode s.data).flatMap fun b =>
    if b = 32 then ['+']
    else if isAlwaysSafeByte b then [Char.ofNat b]
    else percentByte b).asString

/-- Model of `urllib.parse.unquote_to_bytes` on one run of ASCII
characters: `%XX` with two hex digits becomes a byte, an invalid escape
leaves the `%` verbatim, every other character contributes its own code. -/
def unquoteToBytesF : Nat → List Char → List Nat
  | _, [] => []
  | 0, _ :: _ => []
  | fuel + 1, c :: rest =>
    if c = '%' then
      match rest with
      | h1 :: h2 :: rest2 =>
        match hexDigitVal h1, hexDigitVal h2 with
        | some a, some b => (16 * a + b) :: unquoteToBytesF fuel rest2
        | _, _ => 37 :: unquoteToBytesF fuel rest
      | _ => 37 :: unquoteToBytesF fuel rest
    else c.toNat :: unquoteToBytesF fuel rest

/-- `unquote_to_bytes` on one run (the fuel, at least the length, only
makes the recursion structural: a `%`-escape consumes three characters
but one unit of fuel). -/
def unquoteToBytes (l : List Char) : List Nat := unquoteToBytesF l.length l

/-- Model of `urllib.parse.unquote`: maximal runs of ASCII characters are
percent-unescaped to bytes and UTF-8-decoded with `errors="replace"`;
non-ASCII characters pass through unchanged (CPython splits on
`[\x00-\x7f]+` runs). -/
def pyUnquoteF : Nat → List Char → List Char
  | 0, _ => []
  | _, [] => []
  | fuel + 1, c :: rest =>
    if c.toNat < 128 then
      let run := (c :: rest).takeWhile (fun d => d.toNat < 128)
      let after := (c :: rest).drop run.length
      utf8DecodeReplace (unquoteToBytes run) ++ pyUnquoteF fuel after
    else c :: pyUnquoteF fuel rest

/-- `urllib.parse.unquote` on a string. -/
def pyUnquote (s : String) : String := (pyUnquoteF s.data.length s.data).asString

/-- `urllib.parse.unquote_plus` as `parse_qsl` applies it: replace `+`
with a space, then `unquote`. -/
def pyUnquotePlus (s : String) : String :=
  pyUnquote ((s.data.map fun c => if c = '+' then ' ' else c).asString)

/-! ## Query strings (model of `parse_qs` / `urlencode(..., doseq=True)`) -/

/-- Split a character list at every occurrence of a separator (Python
`str.split`: empty pieces are kept, the empty input gives one empty
piece). -/
def splitOnChar (sep : Char) : List Char → List (List Char)
  | [] => [[]]
  | c :: rest =>
    match splitOnChar sep rest with
    | [] => [[]]
    | piece :: pieces =>
      if c = sep then [] :: piece :: pieces else (c :: piece) :: pieces

/-- Split at the first occurrence of a character (`str.split(sep, 1)`),
or `none` when absent. -/
def splitAtFirst (sep : Char) : List Char → Option (List Char × List Char)
  | [] => none
  | c :: rest =>
    if c = sep then some ([], rest)
    else (splitAtFirst sep rest).map fun (a, b) => (c :: a, b)

/-- One `parse_qsl` piece: an empty piece is skipped, the others are
split at the first `=` (a piece without `=` keeps a blank value) and both
halves `unquote_plus`-decoded. -/
def qsPiece (piece : List Char) : Option (String × String) :=
  if piece = [] then none
  else
    let nv := match splitAtFirst '=' piece with
      | some (n, v) => (n, v)
      | none => (piece, [])
    some (pyUnquotePlus nv.1.asString, pyUnquotePlus nv.2.asString)

/-- Model of `urllib.parse.parse_qsl(qs, keep_blank_values=True)`: split
on `&`, then handle each piece. -/
def parseQsl (qs : List Char) : List (String × String) :=
  (splitOnChar '&' qs).filterMap qsPiece

/-- Append one value to a grouped multi-dict, Python `dict`-style: extend
the existing key's list in place, otherwise append a new key at the end. -/
def groupAdd (k : String) (v : String) :
    List (String × List String) → List (String × List String)
  | [] => [(k, [v])]
  | (k0, vs) :: rest =>
    if k0 = k then (k0, vs ++ [v]) :: rest else (k0, vs) :: groupAdd k v rest

/-- Model of `urllib.parse.parse_qs(qs, keep_blank_values=True)`: group
the `parse_qsl` pairs into a dict of lists (insertion-ordered). -/
def parseQs (qs : List Char) : List (String × List String) :=
  (parseQsl qs).foldl (fun acc (kv : String × String) => groupAdd kv.1 kv.2 acc) []

/-- Python `d[k] = vs` on a grouped dict: replace in place or append. -/
def groupSet (k : String) (vs : List String) :
    List (String × List String) → List (String × List String)
  | [] => [(k, vs)]
  | (k0, vs0) :: rest =>
    if k0 = k then (k0, vs) :: rest else (k0, vs0) :: groupSet k vs rest

/-- The list of values a grouped dict binds to a key (`[]` when absent). -/
def qsValues (g : List (String × List String)) (k : String) : List String :=
  ((g.find? fun p => p.1 = k).map fun p => p.2).getD []

/-- Model of `urllib.parse.urlencode(d, doseq=True)` on a dict of lists:
one `quote_plus(k)=quote_plus(v)` piece per value, joined with `&`. -/
def pyUrlencodeDoseq (g : List (String × List String)) : String :=
  (intercalChar '&'
    (g.flatMap fun kv => kv.2.map fun v =>
      (pyQuotePlus kv.1).data ++ '=' :: (pyQuotePlus v).data)).asString

/-! ## URL parsing (model of `urllib.parse.urlparse`)

`auth_authorize` compares the scheme and netloc of the upstream
`Location` against the configured emulator-internal host and reads the
path and query.  The `params` component (`;` in the last path segment)
is not separated out, as the module never reads it. -/

/-- The result components of `urlparse` this module uses. -/
structure UrlParts where
  scheme : String
  netloc : String
  path : String
  query : String
  fragment : String
deriving DecidableEq

/-- Characters allowed in a URL scheme. -/
def isSchemeChar (c : Char) : Bool :=
  c.isAlpha || c.isDigit || c = '+' || c = '-' || c = '.'

/-- Model of `urllib.parse.urlparse`: scheme (lowercased) taken before the
first `:` when the prefix starts with an ASCII letter and has only scheme
characters; `//`-led netloc up to the first `/`, `?` or `#`; fragment
split at the first `#` before the query is split at the first `?`. -/
def pyUrlparse (s : String) : UrlParts :=
  let l := s.data
  let schemeSplit :=
    match splitAtFirst ':' l with
    | some (pre, post) =>
      if pre ≠ [] ∧ (pre.headD ' ').isAlpha ∧ pre.all isSchemeChar then
        ((pre.map Char.toLower), post)
      else ([], l)
    | none => ([], l)
  let scheme := schemeSplit.1
  let rest1 := schemeSplit.2
  let netlocSplit :=
    match rest1 with
    | '/' :: '/' :: r =>
      let nl := r.takeWhile fun c => ¬(c = '/' ∨ c = '?' ∨ c = Char.ofNat 35)
      (nl, r.drop nl.length)
    | _ => ([], rest1)
  let netloc := netlocSplit.1
  let rest2 := netlocSplit.2
  let fragSplit := match splitAtFirst (Char.ofNat 35) rest2 with
    | some (a, b) => (a, b)
    | none => (rest2, [])
  let rest3 := fragSplit.1
  let querySplit := match splitAtFirst '?' rest3 with
    | some (a, b) => (a, b)
    | none => (rest3, [])
  { scheme := scheme.asString
    netloc := netloc.asString
    path := querySplit.1.asString
    query := querySplit.2.asString
    fragment := fragSplit.2.asString }

/-! ## Cookie reading (`_read_auth_cookie`, `_decode_cookie_value`)

Direct translations of the module's cookie helpers.  A request's cookies
are an association list; `request.cookies.get` is first-match lookup. -/

/-- A request's cookie dict. -/
abbrev CookieJar := List (String × String)

/-- `request.cookies.get(name)`. -/
def cookieGet (jar : CookieJar) (name : String) : Option String :=
  (jar.find? fun p => p.1 = name).map fun p => p.2

/-- Collect leading `some`s (the `for i in range(10): ... if chunk is None:
break` loop shape). -/
def takeWhileSome : List (Option String) → List String
  | [] => []
  | none :: _ => []
  | some s :: rest => s :: takeWhileSome rest

/-- The chunk-cookie name `f"{name}.{i}"`. -/
def chunkName (name : String) (i : Nat) : String :=
  name ++ "." ++ (natDigits i).asString

/-- The chunk values `name.0, name.1, ...` up to index 9, stopping at the
first missing index (the chunk loop in `_read_auth_cookie`). -/
def chunkCookies (name : String) (jar : CookieJar) : List String :=
  takeWhileSome ((List.range 10).map fun i => cookieGet jar (chunkName name i))

/-- The `"base64-"` marker of the base64url cookie format. -/
def b64Marker : String := "base64-"

/-- Python `s + "=" * (-len(s) % 4)`: restore stripped base64 padding. -/
def padB64Chars (l : List Char) : List Char :=
  l ++ List.replicate ((4 - l.length % 4) % 4) '='

/-- `padB64Chars` on a `String`. -/
def padB64 (s : String) : String := (padB64Chars s.data).asString

/-- Translation of `_decode_cookie_value`: try the `"base64-"`-prefixed
base64url format, then direct JSON, then percent-encoded JSON; each
failed stage (a caught exception in the source) falls through to the
next, and `None` is returned when all fail. -/
def _decode_cookie_value (raw : String) : Option Json :=
  let viaB64 : Option Json :=
    if pyStartsWith raw b64Marker then
      match pyUrlsafeB64Decode (padB64 (raw.drop 7)).data with
      | none => none
      | some bytes =>
        match utf8Decode bytes with      -- `.decode("utf-8")`, strict
        | none => none
        | some chars => jsonParse chars.asString
    else none
  match viaB64 with
  | some j => some j
  | none =>
    match jsonParse raw with
    | some j => some j
    | none => jsonParse (pyUnquote raw)

/-- Translation of `_read_auth_cookie`: the base cookie if it is truthy,
else the concatenation of the contiguous chunk cookies; a still-falsy
value means no session; otherwise decode. -/
def _read_auth_cookie (name : String) (jar : CookieJar) : Option Json :=
  let raw0 := cookieGet jar name
  let raw1 : Option String :=
    if raw0.getD "" = "" then            -- `if not raw:` (missing or empty)
      let chunks := chunkCookies name jar
      if chunks ≠ [] then some (String.join chunks) else raw0
    else raw0
  match raw1 with
  | none => none
  | some r => if r = "" then none else _decode_cookie_value r

/-- The encoding the bootstrap page's `setAuthCookie` writes (and
`_session_bootstrap_html` documents as the @supabase/ssr format):
`"base64-" + base64url(JSON.stringify(session))` without padding. -/
def setAuthCookieValue (session : Json) : String :=
  "base64-" ++ (b64UrlEncodeNoPad (utf8Encode (jsonSerialize session).data)).asString

/-! ## `_build_response` and the reverse proxies

An upstream `httpx.Response`'s headers are the raw header list (httpx
keeps one entry per received header line; its `items()` view lowercases
keys and joins duplicate keys with `", "`). -/

/-- An upstream response as the proxies see it. -/
structure UpstreamResp where
  status : Nat
  headers : List (String × String)
  body : List Nat
deriving DecidableEq

/-- The response returned to the browser. -/
structure ProxyResp where
  status : Nat
  headers : List (String × String)
  body : List Nat
deriving DecidableEq

/-- One step of the `httpx.Headers.items()` fold: merge a header into the
accumulated dict, joining values for an existing key with `", "`. -/
def itemsAdd (k v : String) : List (String × String) → List (String × String)
  | [] => [(k, v)]
  | (k0, v0) :: rest =>
    if k0 = k then (k0, v0 ++ ", " ++ v) :: rest else (k0, v0) :: itemsAdd k v rest

/-- Model of `httpx.Headers.items()`: keys lowercased, duplicate keys
concatenated into a single comma-separated value. -/
def httpxHeaderItems (hs : List (String × String)) : List (String × String) :=
  hs.foldl (fun acc kv => itemsAdd (strToLower kv.1) kv.2 acc) []

/-- Model of `httpx.Headers.get_list(key)`: every instance of the key
(case-insensitively), in order. -/
def httpxGetList (hs : List (String × String)) (k : String) : List String :=
  (hs.filter fun p => strToLower p.1 = k).map fun p => p.2

/-- The hop-by-hop headers `_build_response` strips. -/
def excludedRespHeaders : List String :=
  ["transfer-encoding", "content-encoding", "content-length"]

/-- Translation of `_build_response`: the dict comprehension over
`upstream.headers.items()`, minus the excluded keys. -/
def _build_response_headers (hs : List (String × String)) : List (String × String) :=
  (httpxHeaderItems hs).filter fun kv => ¬ excludedRespHeaders.contains (strToLower kv.1)

/-- Translation of `_build_response`. -/
def _build_response (u : UpstreamResp) : ProxyResp :=
  { status := u.status, headers := _build_response_headers u.headers, body := u.body }

/-- Translation of `proxy_entra` (and equally `proxy_common`): the
upstream response passed through `_build_response`. -/
def proxy_entra (u : UpstreamResp) : ProxyResp := _build_response u

/-- Translation of the response side of `proxy_supabase`: on a redirect
status with a truthy `Location`, a `RedirectResponse` whose location has
the site-url prefix replaced by the request origin and to which every
`Set-Cookie` instance is appended individually; otherwise
`_build_response`.  (Bookkeeping headers `RedirectResponse` adds itself,
such as `content-length`, are not modelled.) -/
def proxy_supabase (siteUrl origin : String) (u : UpstreamResp) : ProxyResp :=
  if u.status = 301 ∨ u.status = 302 ∨ u.status = 303 ∨ u.status = 307 ∨
      u.status = 308 then
    let location := ((httpxHeaderItems u.headers).find? fun p => p.1 = "location").map
      fun p => p.2
    match location with
    | some loc =>
      if loc ≠ "" then
        let loc2 := if pyStartsWith loc siteUrl then origin ++ loc.drop siteUrl.length
          else loc
        { status := u.status
          headers := ("location", loc2) ::
            (httpxGetList u.headers "set-cookie").map (("set-cookie", ·))
          body := [] }
      else _build_response u
    | none => _build_response u
  else _build_response u

/-! ## The auth endpoints

Each endpoint is a function of its request data and of the outcomes of
the upstream calls it makes (an HTTP response, or a connection-level
error raised by the client).  `Except.error ()` models an uncaught Python
exception escaping the handler (FastAPI then returns a 500, not the
handler's own response). -/

/-- Outcome of one outbound `httpx` call. -/
inductive UpstreamCallResult where
  | resp (status : Nat) (body : String)
  | connError
deriving DecidableEq

/-- The signout response: the `{ok: true}` body plus the cookie names the
response deletes (expires), in order. -/
structure SignoutResp where
  okBody : Bool
  deleted : List String
deriving DecidableEq

deriving instance DecidableEq for Except

/-- The cookie names `auth_signout` deletes: the base name, then
`name.0` .. `name.4` (`range(5)`). -/
def signoutDeleted (name : String) : List String :=
  name :: (List.range 5).map (chunkName name)

/-- Translation of `auth_signout`: read the auth cookie; if it is truthy
and holds a truthy `access_token`, call the upstream logout (the call is
not wrapped in `try`, so a connection error propagates; the response
status is ignored); then return `{ok: true}` and delete the base cookie
and chunks `.0`..`.4`. -/
def auth_signout (name : String) (jar : CookieJar) (logout : UpstreamCallResult) :
    Except Unit SignoutResp :=
  let proceed : Except Unit Unit :=
    match _read_auth_cookie name jar with
    | none => .ok ()                     -- `if cookie_data:` — None is falsy
    | some cd =>
      if cd.pyTruthy then
        match cd.dictGet "access_token" with
        | .error _ => .error ()          -- `.get` on a non-dict raises
        | .ok tok =>
          if pyTruthyOpt tok then
            match logout with
            | .connError => .error ()    -- unguarded `await client.post(...)`
            | .resp _ _ => .ok ()
          else .ok ()
      else .ok ()
  match proceed with
  | .error e => .error e
  | .ok _ => .ok { okBody := true, deleted := signoutDeleted name }

/-- The upstream outcomes `auth_sync_profile` may consume, in call order. -/
structure SyncEnv where
  userResp : UpstreamCallResult     -- GET {SUPABASE}/auth/v1/user
  dirResp : UpstreamCallResult      -- GET {DIRECTORY}/v1.0/users/{email}
  upsertResp : UpstreamCallResult   -- POST {SUPABASE}/rest/v1/user_profiles
deriving DecidableEq

/-- The sync-profile `{ok: true}` body with its optional `reason` field. -/
structure SyncOkResp where
  reason : Option String
deriving DecidableEq

/-- The `Authorization: Bearer` token slice (`auth_header[7:]` after the
`startswith("Bearer ")` check). -/
def bearerToken : Option String → Option String
  | none => none
  | some s => if pyStartsWith s "Bearer " then some (s.drop 7) else none

/-- The body of `auth_sync_profile` from the who-am-I call on (factored
out of the handler translation below; the composition matches the source
line for line).  The who-am-I call and the final upsert are not wrapped
in `try`, so their connection errors propagate, as do `.json()` failures
and attribute errors on non-dict JSON bodies; only the directory lookup
is guarded by `try/except`. -/
def syncUserPhase (env : SyncEnv) : Except Unit SyncOkResp :=
  match env.userResp with
  | .connError => .error ()            -- unguarded `await client.get(...)`
  | .resp st body =>
    if st ≠ 200 then .ok ⟨some "user_fetch_failed"⟩
    else
      match jsonParse body with        -- `user_resp.json()` raises on bad JSON
      | none => .error ()
      | some user =>
        match user.dictGet "id", user.dictGet "email" with
        | .error _, _ => .error ()     -- `.get` on a non-dict raises
        | _, .error _ => .error ()
        | .ok _uid, .ok email =>
          if ¬pyTruthyOpt email then .ok ⟨some "no_email"⟩
          else
            match email with
            | some (.str _) =>
              match env.dirResp with
              | .connError => .ok ⟨some "directory_unavailable"⟩  -- `try/except`
              | .resp dst dbody =>
                if dst ≠ 200 then .ok ⟨some "directory_unavailable"⟩
                else
                  match jsonParse dbody with  -- `dir_resp.json()`, outside the try
                  | none => .error ()
                  | some dirUser =>
                    match dirUser.dictGet "jobTitle",
                        dirUser.dictGet "department" with
                    | .error _, _ => .error ()
                    | _, .error _ => .error ()
                    | .ok _, .ok _ =>
                      match env.upsertResp with
                      | .connError => .error ()  -- unguarded `await client.post`
                      | .resp _ _ => .ok ⟨none⟩
            | _ => .error ()
              -- a truthy non-string email reaches `urllib.parse.quote(email)`,
              -- which raises `TypeError` on a non-str

/-- Translation of `auth_sync_profile`.  Early exits return `{ok: true}`
with a reason rather than an error status. -/
def auth_sync_profile (dirUrl : String) (name : String) (jar : CookieJar)
    (authHeader : Option String) (env : SyncEnv) : Except Unit SyncOkResp :=
  if dirUrl = "" then .ok ⟨some "directory_not_configured"⟩
  else
    -- token from the cookie, else from the Authorization header
    let cookieTokStep : Except Unit Bool :=
      match _read_auth_cookie name jar with
      | none => .ok false
      | some cd =>
        if cd.pyTruthy then
          match cd.dictGet "access_token" with
          | .error _ => .error ()
          | .ok tok => .ok (pyTruthyOpt tok)
        else .ok false
    match cookieTokStep with
    | .error e => .error e
    | .ok cookieTok =>
      let haveTok : Bool :=
        if cookieTok then true
        else match bearerToken authHeader with
          | some t => t ≠ ""             -- `if not access_token:` on the slice
          | none => false
      if ¬haveTok then .ok ⟨some "no_token"⟩
      else syncUserPhase env
  /- the `{"ok": True}` body of every `.ok` branch is the `SyncOkResp` -/

/-- Translation of the JWT-expiry extraction in `auth_session` (lines
266-277): defaults `expires_in = 3600`, `expires_at = now + 3600`; split
the token on `.`; with at least two parts, pad and base64url-decode the
payload, `json.loads` it, and if an `exp` claim exists assign it to
`expires_at` and recompute `expires_in`; every raised exception is
swallowed, keeping whatever was assigned so far.  (`time.time()` is read
as the single value `now`; `int()` truncation is exact because numbers
are modelled as integers.) -/
def sessionExpiry (access_token : String) (now : Int) : Json × Int :=
  let dflt : Json × Int := (Json.num (now + 3600), 3600)
  let parts := splitOnChar '.' access_token.data
  if parts.length ≥ 2 then
    match pyUrlsafeB64Decode (padB64Chars ((parts.get? 1).getD [])) with
    | none => dflt
    | some bytes =>
      match utf8Decode bytes with        -- `json.loads` decodes the bytes first
      | none => dflt
      | some chars =>
        match jsonParseChars chars with
        | none => dflt
        | some claims =>
          match claims with
          | .obj m =>
            match JsonObj.get m "exp" with
            | none => dflt               -- `"exp" in claims` is false
            | some ev =>
              match ev with
              | .num e => (Json.num e, max (e - now) 0)
              | .bool b => (Json.bool b, max ((if b then 1 else 0) - now) 0)
                -- Python `bool` is an `int`: `True - time.time()` subtracts 1,
                -- `False` subtracts 0, and no exception is raised
              | _ => (ev, 3600)
              -- `expires_at = claims["exp"]` already ran; the subtraction
              -- then raised `TypeError`, so `expires_in` keeps 3600
          | _ => dflt
            -- `"exp" in claims` on a non-dict raises `TypeError`, or (for
            -- str/list) the subsequent indexing does; defaults survive
  else dflt

/-- The full session object `auth_session` builds on a successful
verification (`user` is the who-am-I response body, passed through). -/
def sessionObject (access refresh : String) (user : Json) (now : Int) : Json :=
  let ea := (sessionExpiry access now).1
  let ei := (sessionExpiry access now).2
  Json.mkObj
    [("access_token", .str access), ("refresh_token", .str refresh),
     ("token_type", .str "bearer"), ("expires_in", .num ei),
     ("expires_at", ea), ("user", user)]

/-- The query parameters `auth_callback` reads. -/
structure CallbackQuery where
  error : Option String
  error_description : Option String
  code : Option String
deriving DecidableEq

/-- The responses `auth_callback` can return. -/
inductive CallbackResponse where
  | redirect (url : String)               -- 302 to the login page
  | staticPage                            -- `FileResponse` of the built callback page
  | bootstrapPage (tokens : Option Json)  -- `_session_bootstrap_html(origin, tokens)`
deriving DecidableEq

/-- Truthiness of `request.query_params.get(...)` (absent or empty is
falsy). -/
def truthyStrOpt : Option String → Bool
  | none => false
  | some s => s ≠ ""

/-- Translation of `auth_callback`: an `error` query parameter redirects
to the login page with the error (and optional description)
percent-encoded; otherwise the pre-built static callback page is served
when present, else the bootstrap page with no inline tokens.  The handler
makes no upstream call and never reads the `code` parameter. -/
def auth_callback (origin : String) (q : CallbackQuery)
    (staticCallbackExists : Bool) : CallbackResponse :=
  if truthyStrOpt q.error then
    let base := origin ++ "/login?error=" ++ pyQuote (q.error.getD "")
    let url :=
      if truthyStrOpt q.error_description then
        base ++ "&error_description=" ++ pyQuote (q.error_description.getD "")
      else base
    .redirect url
  else if staticCallbackExists then .staticPage
  else .bootstrapPage none

/-- The configuration `auth_authorize` reads (each value as the
environment supplies it, defaults already applied). -/
structure AuthorizeCfg where
  entraEmulatorInternalHost : String    -- ENTRA_EMULATOR_INTERNAL_HOST
  entraPublicBase : String              -- ENTRA_PUBLIC_BASE
  gotrueRedirectUri : String            -- GOTRUE_EXTERNAL_AZURE_REDIRECT_URI
deriving DecidableEq

/-- Python `s.rstrip("/")`. -/
def rstripSlash (s : String) : String :=
  (s.data.reverse.dropWhile (· = '/')).reverse.asString

/-- Translation of the `Location` rewrite in `auth_authorize` (lines
194-215): if the upstream redirect's scheme and netloc equal the
emulator-internal host's, prefix the public base path, overwrite
`redirect_uri` with the configured exact value in the parsed query, and
re-encode; otherwise keep the location unchanged.  (All operations in the
source's `try` block are total here, so the `except` branch is
unreachable in the model.) -/
def authAuthorizeRewrite (cfg : AuthorizeCfg) (origin location : String) : String :=
  let locUrl := pyUrlparse location
  let emu := pyUrlparse cfg.entraEmulatorInternalHost
  if locUrl.scheme = emu.scheme ∧ locUrl.netloc = emu.netloc then
    let basePath := rstripSlash cfg.entraPublicBase
    let newPath := basePath ++ locUrl.path
    let qsParams := parseQs locUrl.query.data
    let qsParams2 := groupSet "redirect_uri" [cfg.gotrueRedirectUri] qsParams
    let newQuery := pyUrlencodeDoseq qsParams2
    origin ++ newPath ++ "?" ++ newQuery
  else location

/-- The responses `auth_authorize` can return. -/
inductive AuthorizeResponse where
  | errorNoRedirect                               -- 502 "No redirect from Supabase"
  | redirect (location : String) (setCookies : List String)  -- 302 + forwarded cookies
deriving DecidableEq

/-- Translation of the response side of `auth_authorize`: a missing or
empty upstream `Location` is a 502; otherwise a 302 to the (possibly
rewritten) location, forwarding the upstream `Set-Cookie` values. -/
def auth_authorize (cfg : AuthorizeCfg) (origin : String)
    (upstreamLocation : Option String) (upstreamSetCookies : List String) :
    AuthorizeResponse :=
  if ¬truthyStrOpt upstreamLocation then .errorNoRedirect
  else .redirect (authAuthorizeRewrite cfg origin (upstreamLocation.getD ""))
    upstreamSetCookies

/-! # Theorems -/

/-! ## UTF-8 round trip -/

theorem char_toNat_valid (c : Char) :
    c.toNat < 0xD800 ∨ (0xDFFF < c.toNat ∧ c.toNat < 0x110000) := by
  have h := c.valid
  simpa [UInt32.isValidChar, Nat.isValidChar] using h

theorem charOfNat_toNat (c : Char) : Char.ofNat c.toNat = c := Char.ofNat_toNat c

theorem utf8EncodeChar_ne_nil (c : Char) : utf8EncodeChar c ≠ [] := by
  unfold utf8EncodeChar
  split
  · simp
  · split
    · simp
    · split <;> simp

theorem utf8DecodeOne_encodeChar (c : Char) (rest : List Nat) :
    utf8DecodeOne (utf8EncodeChar c ++ rest) = some (c, rest) := by
  have hval := char_toNat_valid c
  unfold utf8EncodeChar
  by_cases h1 : c.toNat < 0x80
  · rw [if_pos h1]
    show utf8DecodeOne (c.toNat :: rest) = _
    simp only [utf8DecodeOne, if_pos h1, charOfNat_toNat]
  · rw [if_neg h1]
    by_cases h2 : c.toNat < 0x800
    · rw [if_pos h2]
      show utf8DecodeOne ((0xC0 + c.toNat / 64) :: (0x80 + c.toNat % 64) :: rest) = _
      have e1 : ¬(0xC0 + c.toNat / 64 < 0x80) := by omega
      have e2 : ¬(0xC0 + c.toNat / 64 < 0xC2) := by omega
      have e3 : 0xC0 + c.toNat / 64 < 0xE0 := by omega
      have e4 : isCont (0x80 + c.toNat % 64) = true := by
        simp only [isCont, Bool.and_eq_true, decide_eq_true_eq]; omega
      simp only [utf8DecodeOne, e1, e2, e3, e4, if_true, if_false, ite_true, ite_false]
      have e5 : (0xC0 + c.toNat / 64 - 0xC0) * 64 + (0x80 + c.toNat % 64 - 0x80) =
          c.toNat := by omega
      rw [e5, charOfNat_toNat]
    · rw [if_neg h2]
      by_cases h3 : c.toNat < 0x10000
      · rw [if_pos h3]
        show utf8DecodeOne ((0xE0 + c.toNat / 4096) :: (0x80 + c.toNat / 64 % 64) ::
          (0x80 + c.toNat % 64) :: rest) = _
        have e1 : ¬(0xE0 + c.toNat / 4096 < 0x80) := by omega
        have e2 : ¬(0xE0 + c.toNat / 4096 < 0xC2) := by omega
        have e3 : ¬(0xE0 + c.toNat / 4096 < 0xE0) := by omega
        have e4 : 0xE0 + c.toNat / 4096 < 0xF0 := by omega
        have hcond : ((if 0xE0 + c.toNat / 4096 = 0xE0 then
              0xA0 ≤ 0x80 + c.toNat / 64 % 64 && 0x80 + c.toNat / 64 % 64 < 0xC0
            else if 0xE0 + c.toNat / 4096 = 0xED then
              0x80 ≤ 0x80 + c.toNat / 64 % 64 && 0x80 + c.toNat / 64 % 64 < 0xA0
            else isCont (0x80 + c.toNat / 64 % 64)) &&
            isCont (0x80 + c.toNat % 64)) = true := by
          simp only [isCont, Bool.and_eq_true, decide_eq_true_eq]
          constructor
          · split
            · -- lead 0xE0: c.toNat / 4096 = 0, so 0x800 ≤ c.toNat < 0x1000
              simp only [Bool.and_eq_true, decide_eq_true_eq]
              omega
            · split
              · -- lead 0xED: c.toNat / 4096 = 13; validity excludes surrogates
                simp only [Bool.and_eq_true, decide_eq_true_eq]
                omega
              · simp only [isCont, Bool.and_eq_true, decide_eq_true_eq]
                omega
          · omega
        simp only [utf8DecodeOne, e1, e2, e3, e4, hcond, if_true, if_false,
          ite_true, ite_false]
        have e5 : (0xE0 + c.toNat / 4096 - 0xE0) * 4096 +
            (0x80 + c.toNat / 64 % 64 - 0x80) * 64 + (0x80 + c.toNat % 64 - 0x80) =
            c.toNat := by omega
        rw [e5, charOfNat_toNat]
      · rw [if_neg h3]
        show utf8DecodeOne ((0xF0 + c.toNat / 262144) :: (0x80 + c.toNat / 4096 % 64) ::
          (0x80 + c.toNat / 64 % 64) :: (0x80 + c.toNat % 64) :: rest) = _
        have e1 : ¬(0xF0 + c.toNat / 262144 < 0x80) := by omega
        have e2 : ¬(0xF0 + c.toNat / 262144 < 0xC2) := by omega
        have e3 : ¬(0xF0 + c.toNat / 262144 < 0xE0) := by omega
        have e4 : ¬(0xF0 + c.toNat / 262144 < 0xF0) := by omega
        have e5 : 0xF0 + c.toNat / 262144 < 0xF5 := by omega
        have hcond : ((if 0xF0 + c.toNat / 262144 = 0xF0 then
              0x90 ≤ 0x80 + c.toNat / 4096 % 64 && 0x80 + c.toNat / 4096 % 64 < 0xC0
            else if 0xF0 + c.toNat / 262144 = 0xF4 then
              0x80 ≤ 0x80 + c.toNat / 4096 % 64 && 0x80 + c.toNat / 4096 % 64 < 0x90
            else isCont (0x80 + c.toNat / 4096 % 64)) &&
            (isCont (0x80 + c.toNat / 64 % 64) && isCont (0x80 + c.toNat % 64))) = true := by
          simp only [isCont, Bool.and_eq_true, decide_eq_true_eq]
          refine ⟨?_, by omega, by omega⟩
          split
          · simp only [Bool.and_eq_true, decide_eq_true_eq]; omega
          · split
            · simp only [Bool.and_eq_true, decide_eq_true_eq]; omega
            · simp only [isCont, Bool.and_eq_true, decide_eq_true_eq]; omega
        simp only [utf8DecodeOne, e1, e2, e3, e4, e5, hcond, if_true, if_false,
          ite_true, ite_false, Bool.and_assoc]
        have e6 : (0xF0 + c.toNat / 262144 - 0xF0) * 262144 +
            (0x80 + c.toNat / 4096 % 64 - 0x80) * 4096 +
            (0x80 + c.toNat / 64 % 64 - 0x80) * 64 + (0x80 + c.toNat % 64 - 0x80) =
            c.toNat := by omega
        rw [e6, charOfNat_toNat]

theorem utf8DecodeF_cons (fuel : Nat) (b : Nat) (bs : List Nat) :
    utf8DecodeF (fuel + 1) (b :: bs) =
      match utf8DecodeOne (b :: bs) with
      | some (c, rest) => (utf8DecodeF fuel rest).map (c :: ·)
      | none => none := rfl

theorem utf8DecodeF_encode (s : List Char) (rest : List Nat) (fuel : Nat)
    (h : s.length ≤ fuel) :
    utf8DecodeF fuel (utf8Encode s ++ rest) = (utf8DecodeF (fuel - s.length) rest).map
      (fun t => s ++ t) := by
  induction s generalizing fuel with
  | nil =>
    simp only [utf8Encode, List.flatMap_nil, List.nil_append, List.length_nil,
      Nat.sub_zero]
    cases hr : utf8DecodeF fuel rest <;> simp
  | cons c cs ih =>
    cases fuel with
    | zero => simp at h
    | succ f =>
      have henc : utf8Encode (c :: cs) = utf8EncodeChar c ++ utf8Encode cs := by
        simp [utf8Encode]
      rw [henc, List.append_assoc]
      obtain ⟨b, bs, hb⟩ : ∃ b bs, utf8EncodeChar c = b :: bs := by
        cases hce : utf8EncodeChar c with
        | nil => exact absurd hce (utf8EncodeChar_ne_nil c)
        | cons b bs => exact ⟨b, bs, rfl⟩
      rw [hb, List.cons_append]
      have hone := utf8DecodeOne_encodeChar c (utf8Encode cs ++ rest)
      rw [hb, List.cons_append] at hone
      rw [utf8DecodeF_cons, hone]
      dsimp only
      rw [ih f (by simpa using h)]
      have harith : f + 1 - (c :: cs).length = f - cs.length := by
        simp only [List.length_cons]; omega
      rw [harith]
      cases utf8DecodeF (f - cs.length) rest <;> simp

theorem utf8Encode_length_ge (s : List Char) : s.length ≤ (utf8Encode s).length := by
  induction s with
  | nil => simp [utf8Encode]
  | cons c cs ih =>
    have : utf8Encode (c :: cs) = utf8EncodeChar c ++ utf8Encode cs := by
      simp [utf8Encode]
    rw [this, List.length_append]
    have : 1 ≤ (utf8EncodeChar c).length := by
      cases hce : utf8EncodeChar c with
      | nil => exact absurd hce (utf8EncodeChar_ne_nil c)
      | cons b bs => simp
    simp only [List.length_cons]
    omega

/-- Round trip: strict UTF-8 decoding inverts UTF-8 encoding. -/
theorem utf8Decode_encode (s : List Char) : utf8Decode (utf8Encode s) = some s := by
  unfold utf8Decode
  have h := utf8DecodeF_encode s [] (utf8Encode s).length (utf8Encode_length_ge s)
  simp only [List.append_nil] at h
  rw [h]
  have : utf8DecodeF ((utf8Encode s).length - s.length) [] = some [] := by
    cases hf : (utf8Encode s).length - s.length <;> simp [utf8DecodeF]
  rw [this]
  simp

/-! ## Base64url round trip -/

theorem b64Index_translate_url : ∀ v : Nat, v < 64 →
    b64Index (b64UrlTranslate (b64UrlChar v)) = some v := by decide

theorem b64UrlChar_translate_ne_eq : ∀ v : Nat, v < 64 →
    b64UrlTranslate (b64UrlChar v) ≠ '=' := by decide

theorem b64Sextets_bounded (bs : List Nat) (h : ∀ b ∈ bs, b < 256) :
    ∀ v ∈ b64Sextets bs, v < 64 := by
  induction bs using b64Sextets.induct with
  | case1 => simp [b64Sextets]
  | case2 b0 =>
    have := h b0 (by simp)
    simp only [b64Sextets, List.mem_cons, List.mem_singleton]
    rintro v (rfl | rfl | h') <;> first | omega | simp_all
  | case3 b0 b1 =>
    have h0 := h b0 (by simp)
    have h1 := h b1 (by simp)
    simp only [b64Sextets, List.mem_cons, List.mem_singleton]
    rintro v (rfl | rfl | rfl | h') <;> first | omega | simp_all
  | case4 b0 b1 b2 bs ih =>
    have h0 := h b0 (by simp)
    have h1 := h b1 (by simp)
    have h2 := h b2 (by simp)
    simp only [b64Sextets, List.mem_cons]
    rintro v (rfl | rfl | rfl | rfl | h')
    · omega
    · omega
    · omega
    · omega
    · exact ih (fun b hb => h b (by simp [hb])) v h'

theorem b64Sextets_length (bs : List Nat) :
    (b64Sextets bs).length = (4 * bs.length + 2) / 3 := by
  induction bs using b64Sextets.induct with
  | case1 => simp [b64Sextets]
  | case2 b0 => simp [b64Sextets]
  | case3 b0 b1 => simp [b64Sextets]
  | case4 b0 b1 b2 bs ih =>
    simp only [b64Sextets, List.length_cons, ih, List.length_cons]
    omega

theorem b64UnSextets_sextets (bs : List Nat) (h : ∀ b ∈ bs, b < 256) :
    b64UnSextets (b64Sextets bs) = some bs := by
  induction bs using b64Sextets.induct with
  | case1 => rfl
  | case2 b0 =>
    have h0 := h b0 (by simp)
    simp only [b64Sextets, b64UnSextets, Option.some.injEq, List.cons.injEq, and_true]
    omega
  | case3 b0 b1 =>
    have h0 := h b0 (by simp)
    have h1 := h b1 (by simp)
    simp only [b64Sextets, b64UnSextets, Option.some.injEq, List.cons.injEq, and_true]
    omega
  | case4 b0 b1 b2 bs ih =>
    have h0 := h b0 (by simp)
    have h1 := h b1 (by simp)
    have h2 := h b2 (by simp)
    have hrest := ih (fun b hb => h b (by simp [hb]))
    simp only [b64Sextets, b64UnSextets, hrest, Option.map_some]
    have e0 : b0 / 4 * 4 + (b0 % 4 * 16 + b1 / 16) / 16 = b0 := by omega
    have e1 : (b0 % 4 * 16 + b1 / 16) % 16 * 16 + (b1 % 16 * 4 + b2 / 64) / 4 = b1 := by
      omega
    have e2 : (b1 % 16 * 4 + b2 / 64) % 4 * 64 + b2 % 64 = b2 := by omega
    rw [e0, e1, e2]
    rfl

theorem takeWhile_append_all {α : Type} {p : α → Bool} {l1 l2 : List α}
    (h : ∀ a ∈ l1, p a) : (l1 ++ l2).takeWhile p = l1 ++ l2.takeWhile p := by
  induction l1 with
  | nil => simp
  | cons a l ih =>
    simp only [List.cons_append, List.takeWhile_cons, h a (by simp)]
    rw [ih (fun b hb => h b (by simp [hb]))]
    simp

/-- Round trip: `urlsafe_b64decode` after padding restoration inverts the
bootstrap page's padding-free base64url encoder on any byte string. -/
theorem b64_roundtrip (bs : List Nat) (h : ∀ b ∈ bs, b < 256) :
    pyUrlsafeB64Decode (padB64Chars (b64UrlEncodeNoPad bs)) = some bs := by
  have hsx := b64Sextets_bounded bs h
  -- the translated encoded characters and their basic facts
  have hmap : (b64UrlEncodeNoPad bs).map b64UrlTranslate =
      (b64Sextets bs).map (fun v => b64UrlTranslate (b64UrlChar v)) := by
    simp [b64UrlEncodeNoPad, List.map_map, Function.comp]
  set E := (b64Sextets bs).map (fun v => b64UrlTranslate (b64UrlChar v)) with hE
  have hEne : ∀ c ∈ E, c ≠ '=' := by
    intro c hc
    rw [hE] at hc
    obtain ⟨v, hv, rfl⟩ := List.mem_map.mp hc
    exact b64UrlChar_translate_ne_eq v (hsx v hv)
  have hEidx : ∀ c ∈ E, (b64Index c).isSome := by
    intro c hc
    rw [hE] at hc
    obtain ⟨v, hv, rfl⟩ := List.mem_map.mp hc
    rw [b64Index_translate_url v (hsx v hv)]
    rfl
  -- unfold the decoder on the padded input
  rw [pyUrlsafeB64Decode]
  have hlen : (b64UrlEncodeNoPad bs).length = (b64Sextets bs).length := by
    simp [b64UrlEncodeNoPad]
  set k := (4 - (b64UrlEncodeNoPad bs).length % 4) % 4 with hk
  have hpad : padB64Chars (b64UrlEncodeNoPad bs) =
      b64UrlEncodeNoPad bs ++ List.replicate k '=' := rfl
  rw [hpad]
  simp only [List.map_append]
  rw [hmap]
  have hrepl : (List.replicate k '=').map b64UrlTranslate = List.replicate k '=' := by
    simp [List.map_replicate, b64UrlTranslate]
  rw [hrepl]
  -- the filter keeps everything
  have hfilter : (E ++ List.replicate k '=').filter
      (fun c => (b64Index c).isSome || c = '=') = E ++ List.replicate k '=' := by
    rw [List.filter_eq_self]
    intro a ha
    rcases List.mem_append.mp ha with hmem | hmem
    · simp [hEidx a hmem]
    · simp [List.eq_of_mem_replicate hmem]
  rw [hfilter]
  -- the '=' split separates the data from the pads
  have hdata : (E ++ List.replicate k '=').takeWhile (fun c => decide (c ≠ '=')) =
      E := by
    rw [takeWhile_append_all (by intro a ha; simpa using hEne a ha)]
    have : (List.replicate k '=').takeWhile (fun c => decide (c ≠ '=')) = [] := by
      cases k <;> simp
    rw [this, List.append_nil]
  rw [hdata]
  rw [List.drop_left' rfl]
  -- the length conditions hold
  have hElen : E.length = (4 * bs.length + 2) / 3 := by
    rw [hE]; simp [b64Sextets_length]
  have hkval : k = (4 - ((4 * bs.length + 2) / 3) % 4) % 4 := by
    rw [hk, hlen, b64Sextets_length]
  have hcond : ((List.replicate k '=').all (fun c => decide (c = '=')) &&
      decide ((E.length + (List.replicate k '=').length) % 4 = 0) &&
      decide (E.length % 4 ≠ 1)) = true := by
    have h1 : (List.replicate k '=').all (fun c => decide (c = '=')) = true := by
      simp
    have h2 : (E.length + k) % 4 = 0 := by
      rw [hElen, hkval]
      omega
    have h3 : E.length % 4 ≠ 1 := by
      rw [hElen]; omega
    simp [h1, h2, h3]
  rw [if_pos hcond]
  -- finally, decode the sextets
  have hmap2 : E.map (fun c => (b64Index c).getD 0) = b64Sextets bs := by
    rw [hE, List.map_map]
    apply List.map_congr_left ?_ |>.trans (List.map_id _)
    intro v hv
    simp [Function.comp, b64Index_translate_url v (hsx v hv)]
  rw [hmap2]
  exact b64UnSextets_sextets bs h

/-! ## Decimal digits -/

/-- Proof-side reformulation of `natDigits` (well-founded recursion on the
value; used only inside proofs). -/
def digitsRep (n : Nat) : List Char :=
  if n < 10 then [digitChar n] else digitsRep (n / 10) ++ [digitChar (n % 10)]
termination_by n
decreasing_by exact Nat.div_lt_self (by omega) (by omega)

theorem natDigitsF_eq_digitsRep (fuel n : Nat) (acc : List Char)
    (h : n < 10 ^ (fuel + 1)) :
    natDigitsF (fuel + 1) n acc = digitsRep n ++ acc := by
  induction fuel generalizing n acc with
  | zero =>
    have h10 : n < 10 := by simpa using h
    have hdiv : n / 10 = 0 := by omega
    rw [natDigitsF]
    simp only [hdiv, if_true, ite_true, if_pos rfl]
    rw [digitsRep, if_pos h10]
    have : n % 10 = n := by omega
    rw [this]
    rfl
  | succ f ih =>
    rw [natDigitsF]
    by_cases h10 : n < 10
    · have hdiv : n / 10 = 0 := by omega
      rw [if_pos hdiv, digitsRep, if_pos h10]
      have : n % 10 = n := by omega
      rw [this]
      rfl
    · have hdiv : ¬(n / 10 = 0) := by omega
      rw [if_neg hdiv]
      have hlt : n / 10 < 10 ^ (f + 1) := by
        have hp : 10 ^ (f + 1 + 1) = 10 ^ (f + 1) * 10 := by ring
        rw [hp] at h
        omega
      rw [ih (n / 10) _ hlt]
      conv_rhs => rw [digitsRep, if_neg h10]
      simp

theorem natDigits_eq_digitsRep (n : Nat) : natDigits n = digitsRep n := by
  have h : n < 10 ^ (n + 1) := by
    calc n < n + 1 := by omega
    _ ≤ 10 ^ (n + 1) := Nat.le_of_lt (Nat.lt_pow_self (by omega) _)
  rw [natDigits, natDigitsF_eq_digitsRep _ _ _ h, List.append_nil]

theorem digitsRep_ne_nil (n : Nat) : digitsRep n ≠ [] := by
  rw [digitsRep]
  split <;> simp

theorem charOfNat_toNat_valid (n : Nat) (h : n.isValidChar) :
    (Char.ofNat n).toNat = n := by
  rw [Char.ofNat, dif_pos h]
  rfl

theorem digitChar_toNat (n : Nat) (h : n < 10) : (digitChar n).toNat = 48 + n :=
  charOfNat_toNat_valid _ (Or.inl (by omega))

theorem digitsRep_all_digit (n : Nat) :
    ∀ c ∈ digitsRep n, 48 ≤ c.toNat ∧ c.toNat ≤ 57 := by
  induction n using digitsRep.induct with
  | case1 n h =>
    rw [digitsRep, if_pos h]
    intro c hc
    simp only [List.mem_singleton] at hc
    subst hc
    rw [digitChar_toNat n h]
    omega
  | case2 n h ih =>
    rw [digitsRep, if_neg h]
    intro c hc
    rcases List.mem_append.mp hc with hm | hm
    · exact ih c hm
    · simp only [List.mem_singleton] at hm
      subst hm
      rw [digitChar_toNat _ (by omega)]
      omega

theorem char_isDigit_iff (c : Char) :
    c.isDigit = true ↔ 48 ≤ c.toNat ∧ c.toNat ≤ 57 := by
  simp only [Char.isDigit, Bool.and_eq_true, decide_eq_true_eq]
  exact Iff.rfl

theorem char_ne_of_toNat_ne {c d : Char} (h : c.toNat ≠ d.toNat) : c ≠ d := by
  intro he
  exact h (he ▸ rfl)

theorem digitsVal_digitsRep (n : Nat) : digitsVal (digitsRep n) = n := by
  induction n using digitsRep.induct with
  | case1 n h =>
    rw [digitsRep, if_pos h]
    simp [digitsVal, digitChar_toNat n h]
  | case2 n h ih =>
    rw [digitsRep, if_neg h]
    simp only [digitsVal, List.foldl_append] at *
    rw [ih]
    simp only [List.foldl_cons, List.foldl_nil]
    rw [digitChar_toNat _ (by omega)]
    omega

theorem digitsRep_head_ne_zero (n : Nat) :
    1 ≤ n → ∀ c, (digitsRep n).head? = some c → c ≠ '0' := by
  induction n using digitsRep.induct with
  | case1 n h =>
    intro hn c hc
    rw [digitsRep, if_pos h] at hc
    simp only [List.head?_cons, Option.some.injEq] at hc
    subst hc
    apply char_ne_of_toNat_ne
    rw [digitChar_toNat n h]
    have : ('0').toNat = 48 := rfl
    omega
  | case2 n h ih =>
    intro hn c hc
    rw [digitsRep, if_neg h] at hc
    have hne := digitsRep_ne_nil (n / 10)
    cases hd : digitsRep (n / 10) with
    | nil => exact absurd hd hne
    | cons a t =>
      rw [hd] at hc
      simp only [List.cons_append, List.head?_cons, Option.some.injEq] at hc
      have hne0 := ih (by omega) a (by rw [hd]; rfl)
      rwa [hc] at hne0

/-- The characters a JSON number may not be followed by for the parse to
succeed and stop exactly at its end. -/
def restOkChar (c : Char) : Prop :=
  c.isDigit = false ∧ c ≠ '.' ∧ c ≠ 'e' ∧ c ≠ 'E'

/-- A suffix that cannot extend a serialized value token. -/
def restOk : List Char → Prop
  | [] => True
  | c :: _ => restOkChar c

theorem parseNatToken_digits (n : Nat) (rest : List Char) (hrest : restOk rest) :
    parseNatToken (natDigits n ++ rest) = some (n, rest) := by
  rw [natDigits_eq_digitsRep]
  have halldig : ∀ c ∈ digitsRep n, Char.isDigit c = true := by
    intro c hc
    exact (char_isDigit_iff c).mpr (digitsRep_all_digit n c hc)
  have htw : (digitsRep n ++ rest).takeWhile Char.isDigit = digitsRep n := by
    rw [takeWhile_append_all halldig]
    have : rest.takeWhile Char.isDigit = [] := by
      cases rest with
      | nil => rfl
      | cons c t =>
        simp only [List.takeWhile_cons]
        rw [hrest.1]
        rfl
    rw [this, List.append_nil]
  rw [parseNatToken]
  simp only [htw]
  cases hd : digitsRep n with
  | nil => exact absurd hd (digitsRep_ne_nil n)
  | cons d ds =>
    simp only []
    have hlz : ¬(d = '0' ∧ ds ≠ []) := by
      rintro ⟨rfl, hds⟩
      by_cases h10 : n < 10
      · rw [digitsRep, if_pos h10] at hd
        simp only [List.cons.injEq] at hd
        exact hds hd.2.symm
      · have := digitsRep_head_ne_zero n (by omega) '0' (by rw [hd]; rfl)
        exact this rfl

    rw [if_neg hlz]
    have hdrop : (digitsRep n ++ rest).drop (digitsRep n).length = rest :=
      List.drop_left _ _
    rw [← hd, hdrop]
    have hval : digitsVal (digitsRep n) = n := digitsVal_digitsRep n
    cases rest with
    | nil => simp [hval]
    | cons c t =>
      have hc : ¬(c = '.' ∨ c = 'e' ∨ c = 'E') := by
        rintro (rfl | rfl | rfl) <;>
          first
          | exact hrest.2.1 rfl
          | exact hrest.2.2.1 rfl
          | exact hrest.2.2.2 rfl
      simp only [if_neg hc, hval]

theorem intDigits_head_digit_or_minus (n : Int) :
    ∃ d t, intDigits n = d :: t ∧ (d = '-' ∨ (48 ≤ d.toNat ∧ d.toNat ≤ 57)) := by
  rw [intDigits]
  split
  · exact ⟨'-', _, rfl, Or.inl rfl⟩
  · rw [natDigits_eq_digitsRep]
    cases hd : digitsRep n.toNat with
    | nil => exact absurd hd (digitsRep_ne_nil _)
    | cons d t =>
      refine ⟨d, t, rfl, Or.inr ?_⟩
      exact digitsRep_all_digit _ d (by rw [hd]; simp)

theorem parseIntToken_intDigits (n : Int) (rest : List Char) (hrest : restOk rest) :
    parseIntToken (intDigits n ++ rest) = some (n, rest) := by
  by_cases hneg : n < 0
  · have hid : intDigits n = '-' :: natDigits n.natAbs := by
      rw [intDigits, if_pos hneg]
    rw [hid, List.cons_append, parseIntToken]
    simp only [List.headD_cons, List.tail_cons, if_pos rfl]
    rw [parseNatToken_digits _ _ hrest]
    show some (-(n.natAbs : Int), rest) = some (n, rest)
    have he : -(n.natAbs : Int) = n := by omega
    rw [he]
  · have hid : intDigits n = natDigits n.toNat := by
      rw [intDigits, if_neg hneg]
    obtain ⟨d, t, hd, hcase⟩ : ∃ d t, natDigits n.toNat = d :: t ∧
        48 ≤ d.toNat ∧ d.toNat ≤ 57 := by
      rw [natDigits_eq_digitsRep]
      cases hd : digitsRep n.toNat with
      | nil => exact absurd hd (digitsRep_ne_nil _)
      | cons d t => exact ⟨d, t, rfl, digitsRep_all_digit _ d (by rw [hd]; simp)⟩
    rw [hid, parseIntToken]
    have hdm : ¬((natDigits n.toNat ++ rest).headD ' ' = '-') := by
      rw [hd]
      simp only [List.cons_append, List.headD_cons]
      apply char_ne_of_toNat_ne
      have : ('-').toNat = 45 := rfl
      omega
    rw [if_neg hdm, parseNatToken_digits _ _ hrest]
    show some ((n.toNat : Int), rest) = some (n, rest)
    have he : ((n.toNat : Int)) = n := by omega
    rw [he]

/-! ## JSON string escaping round trip -/

theorem hexDigitVal_hexChar : ∀ v : Nat, v < 16 → hexDigitVal (hexChar v) = some v := by
  decide

theorem parseStringTok_close (rest : List Char) :
    parseStringTok ('\"' :: rest) = some (none, rest) := rfl

theorem parseStringTok_escq (T : List Char) :
    parseStringTok ('\\' :: '\"' :: T) = some (some '\"', T) := rfl

theorem parseStringTok_escbs (T : List Char) :
    parseStringTok ('\\' :: '\\' :: T) = some (some '\\', T) := rfl

theorem parseStringTok_escb (T : List Char) :
    parseStringTok ('\\' :: 'b' :: T) = some (some (Char.ofNat 8), T) := rfl

theorem parseStringTok_esct (T : List Char) :
    parseStringTok ('\\' :: 't' :: T) = some (some (Char.ofNat 9), T) := rfl

theorem parseStringTok_escn (T : List Char) :
    parseStringTok ('\\' :: 'n' :: T) = some (some (Char.ofNat 10), T) := rfl

theorem parseStringTok_escf (T : List Char) :
    parseStringTok ('\\' :: 'f' :: T) = some (some (Char.ofNat 12), T) := rfl

theorem parseStringTok_escr (T : List Char) :
    parseStringTok ('\\' :: 'r' :: T) = some (some (Char.ofNat 13), T) := rfl

theorem parseStringTok_u (a b d e : Char) (T : List Char) :
    parseStringTok ('\\' :: 'u' :: a :: b :: d :: e :: T) =
      (match hexDigitVal a, hexDigitVal b, hexDigitVal d, hexDigitVal e with
      | some v1, some v2, some v3, some v4 =>
        let v := v1 * 4096 + v2 * 256 + v3 * 16 + v4
        if 0xD800 ≤ v ∧ v < 0xDC00 then
          match T with
          | e2 :: u2 :: g1 :: g2 :: g3 :: g4 :: rest3 =>
            if e2 = '\\' ∧ u2 = 'u' then
              match hexDigitVal g1, hexDigitVal g2, hexDigitVal g3, hexDigitVal g4 with
              | some w1, some w2, some w3, some w4 =>
                let w := w1 * 4096 + w2 * 256 + w3 * 16 + w4
                if 0xDC00 ≤ w ∧ w < 0xE000 then
                  some (some (Char.ofNat
                    (0x10000 + (v - 0xD800) * 1024 + (w - 0xDC00))), rest3)
                else none
              | _, _, _, _ => none
            else none
          | _ => none
        else if 0xDC00 ≤ v ∧ v < 0xE000 then none
        else some (some (Char.ofNat v), T)
      | _, _, _, _ => none) := rfl

theorem parseStringTok_other (c : Char) (T : List Char) (h1 : c ≠ '\"')
    (h2 : c ≠ '\\') (h3 : ¬(c.toNat < 0x20)) :
    parseStringTok (c :: T) = some (some c, T) := by
  show (if c = '\"' then some (none, T)
    else if c = '\\' then _
    else if c.toNat < 0x20 then none else some (some c, T)) = some (some c, T)
  rw [if_neg h1, if_neg h2, if_neg h3]

theorem parseStringTok_escapeChar (c : Char) (T : List Char) :
    parseStringTok (escapeChar c ++ T) = some (some c, T) := by
  rw [escapeChar]
  by_cases h1 : c = '\"'
  · subst h1; rw [if_pos rfl]; exact parseStringTok_escq T
  · rw [if_neg h1]
    by_cases h2 : c = '\\'
    · subst h2; rw [if_pos rfl]; exact parseStringTok_escbs T
    · rw [if_neg h2]
      by_cases h3 : c = Char.ofNat 8
      · subst h3; rw [if_pos rfl]; exact parseStringTok_escb T
      · rw [if_neg h3]
        by_cases h4 : c = Char.ofNat 9
        · subst h4; rw [if_pos rfl]; exact parseStringTok_esct T
        · rw [if_neg h4]
          by_cases h5 : c = Char.ofNat 10
          · subst h5; rw [if_pos rfl]; exact parseStringTok_escn T
          · rw [if_neg h5]
            by_cases h6 : c = Char.ofNat 12
            · subst h6; rw [if_pos rfl]; exact parseStringTok_escf T
            · rw [if_neg h6]
              by_cases h7 : c = Char.ofNat 13
              · subst h7; rw [if_pos rfl]; exact parseStringTok_escr T
              · rw [if_neg h7]
                by_cases h8 : c.toNat < 0x20
                · rw [if_pos h8]
                  show parseStringTok ('\\' :: 'u' :: '0' :: '0' ::
                    hexChar (c.toNat / 16) :: hexChar (c.toNat % 16) :: T) = _
                  rw [parseStringTok_u]
                  have hz : hexDigitVal '0' = some 0 := rfl
                  rw [hz, hexDigitVal_hexChar _ (by omega),
                    hexDigitVal_hexChar _ (by omega)]
                  dsimp only
                  have hv : 0 * 4096 + 0 * 256 + c.toNat / 16 * 16 + c.toNat % 16 =
                      c.toNat := by omega
                  rw [hv]
                  have hs1 : ¬(0xD800 ≤ c.toNat ∧ c.toNat < 0xDC00) := by omega
                  have hs2 : ¬(0xDC00 ≤ c.toNat ∧ c.toNat < 0xE000) := by omega
                  rw [if_neg hs1, if_neg hs2, charOfNat_toNat]
                · rw [if_neg h8]
                  show parseStringTok (c :: T) = _
                  exact parseStringTok_other c T h1 h2 h8

theorem parseStringBodyF_cons (fuel : Nat) (l : List Char) :
    parseStringBodyF (fuel + 1) l =
      match parseStringTok l with
      | none => none
      | some (none, rest) => some ([], rest)
      | some (some c, rest) =>
        (parseStringBodyF fuel rest).map fun (s, r) => (c :: s, r) := rfl

theorem escapeChar_ne_nil (c : Char) : escapeChar c ≠ [] := by
  rw [escapeChar]
  repeat' split
  all_goals simp

theorem parseStringBodyF_esc (s : List Char) (rest : List Char) (fuel : Nat)
    (h : (escList s ++ '\"' :: rest).length ≤ fuel) :
    parseStringBodyF fuel (escList s ++ '\"' :: rest) = some (s, rest) := by
  induction s generalizing fuel with
  | nil =>
    cases fuel with
    | zero => simp at h
    | succ f =>
      show parseStringBodyF (f + 1) ('\"' :: rest) = _
      rw [parseStringBodyF_cons, parseStringTok_close]
  | cons c cs ih =>
    cases fuel with
    | zero =>
      exfalso
      have : 0 < (escList (c :: cs) ++ '\"' :: rest).length := by
        simp
      omega
    | succ f =>
      have hesc : escList (c :: cs) ++ '\"' :: rest =
          escapeChar c ++ (escList cs ++ '\"' :: rest) := by
        simp [escList]
      rw [hesc, parseStringBodyF_cons, parseStringTok_escapeChar]
      dsimp only
      have hlen : (escList cs ++ '\"' :: rest).length ≤ f := by
        rw [hesc] at h
        have h1 : 1 ≤ (escapeChar c).length := by
          cases he : escapeChar c with
          | nil => exact absurd he (escapeChar_ne_nil c)
          | cons a t => simp
        rw [List.length_append] at h
        omega
      rw [ih f hlen]
      rfl

theorem parseStringBody_esc (s : List Char) (rest : List Char) :
    parseStringBody (escList s ++ '\"' :: rest) = some (s, rest) :=
  parseStringBodyF_esc s rest _ (le_refl _)

/-! ## JSON parse/serialize round trip -/

theorem asString_data (s : String) : List.asString s.data = s := rfl

theorem parseScalar_quote (rest : List Char) :
    parseScalar ('\"' :: rest) =
      (parseStringBody rest).map fun (s, r) => (Json.str s.asString, r) := rfl

theorem parseScalar_true (r : List Char) :
    parseScalar ('t' :: 'r' :: 'u' :: 'e' :: r) = some (Json.bool true, r) := rfl

theorem parseScalar_false (r : List Char) :
    parseScalar ('f' :: 'a' :: 'l' :: 's' :: 'e' :: r) = some (Json.bool false, r) := rfl

theorem parseScalar_null (r : List Char) :
    parseScalar ('n' :: 'u' :: 'l' :: 'l' :: r) = some (Json.null, r) := rfl

theorem parseScalar_num (c : Char) (rest : List Char) (h1 : c ≠ '\"')
    (h2 : c ≠ 't') (h3 : c ≠ 'f') (h4 : c ≠ 'n') (h5 : c = '-' ∨ c.isDigit) :
    parseScalar (c :: rest) =
      (parseIntToken (c :: rest)).map fun (n, r) => (Json.num n, r) := by
  rw [parseScalar.eq_def]
  dsimp only
  rw [if_neg h1, if_neg h2, if_neg h3, if_neg h4, if_pos h5]

theorem parseValueF_succ_other (fuel : Nat) (c : Char) (rest : List Char)
    (h1 : c ≠ Char.ofNat 123) (h2 : c ≠ '[') :
    parseValueF (fuel + 1) (c :: rest) = parseScalar (c :: rest) := by
  rw [parseValueF.eq_def]
  dsimp only
  rw [if_neg h1, if_neg h2]

theorem parseValueF_succ_brace (fuel : Nat) (l : List Char) :
    parseValueF (fuel + 1) (Char.ofNat 123 :: l) =
      (match l.dropWhile jsonWs with
      | c1 :: r2 =>
        if c1 = Char.ofNat 125 then some (Json.obj .nil, r2)
        else
          (parseMembersF fuel (c1 :: r2)).map fun (m, r) =>
            (Json.obj (JsonObj.dictOfMembers m), r)
      | [] => none) := rfl

theorem parseValueF_succ_bracket (fuel : Nat) (l : List Char) :
    parseValueF (fuel + 1) ('[' :: l) =
      (match l.dropWhile jsonWs with
      | c1 :: r2 =>
        if c1 = ']' then some (Json.arr .nil, r2)
        else (parseElemsF fuel (c1 :: r2)).map fun (vs, r) => (Json.arr vs, r)
      | [] => none) := rfl

theorem parseElemsF_succ (fuel : Nat) (l : List Char) :
    parseElemsF (fuel + 1) l =
      (match parseValueF fuel l with
      | none => none
      | some (v, r1) =>
        match r1.dropWhile jsonWs with
        | c :: r2 =>
          if c = ',' then
            (parseElemsF fuel (r2.dropWhile jsonWs)).map fun (vs, r) =>
              (JsonList.cons v vs, r)
          else if c = ']' then some (JsonList.cons v .nil, r2)
          else none
        | [] => none) := rfl

theorem parseMembersF_succ_quote (fuel : Nat) (rest : List Char) :
    parseMembersF (fuel + 1) ('\"' :: rest) =
      (match parseStringBody rest with
      | some (k, r1) =>
        match r1.dropWhile jsonWs with
        | c1 :: r2 =>
          if c1 = ':' then
            match parseValueF fuel (r2.dropWhile jsonWs) with
            | some (v, r3) =>
              match r3.dropWhile jsonWs with
              | c2 :: r4 =>
                if c2 = ',' then
                  (parseMembersF fuel (r4.dropWhile jsonWs)).map fun (m, r) =>
                    (JsonObj.cons k.asString v m, r)
                else if c2 = Char.ofNat 125 then
                  some (JsonObj.cons k.asString v .nil, r4)
                else none
              | [] => none
            | none => none
          else none
        | [] => none
      | none => none) := rfl

theorem dropWhile_cons_false {p : Char → Bool} {c : Char} {l : List Char}
    (h : p c = false) : (c :: l).dropWhile p = c :: l := by
  simp [List.dropWhile_cons, h]

/-- The head of any serialized value: never whitespace, never a closing
delimiter, never something that extends a number token. -/
theorem ser_head_props (j : Json) : ∃ c t, Json.ser j = c :: t ∧
    jsonWs c = false ∧ c ≠ ']' ∧ c ≠ Char.ofNat 125 ∧ c ≠ ',' := by
  cases j with
  | null => exact ⟨'n', _, rfl, by decide, by decide, by decide, by decide⟩
  | bool b =>
    cases b with
    | true => exact ⟨'t', _, rfl, by decide, by decide, by decide, by decide⟩
    | false => exact ⟨'f', _, rfl, by decide, by decide, by decide, by decide⟩
  | num n =>
    obtain ⟨d, t, hd, hcase⟩ := intDigits_head_digit_or_minus n
    rcases hcase with rfl | ⟨hlo, hhi⟩
    · exact ⟨'-', t, hd, by decide, by decide, by decide, by decide⟩
    · have hsp : d ≠ ' ' := char_ne_of_toNat_ne (by
        have : (' ').toNat = 32 := rfl
        omega)
      have htab : d ≠ '\t' := char_ne_of_toNat_ne (by
        have : ('\t').toNat = 9 := rfl
        omega)
      have hnl : d ≠ '\n' := char_ne_of_toNat_ne (by
        have : ('\n').toNat = 10 := rfl
        omega)
      have hcr : d ≠ '\r' := char_ne_of_toNat_ne (by
        have : ('\r').toNat = 13 := rfl
        omega)
      refine ⟨d, t, hd, ?_, ?_, ?_, ?_⟩
      · simp [jsonWs, hsp, htab, hnl, hcr]
      · exact char_ne_of_toNat_ne (by
          have : (']').toNat = 93 := rfl
          omega)
      · exact char_ne_of_toNat_ne (by
          have : (Char.ofNat 125).toNat = 125 := rfl
          omega)
      · exact char_ne_of_toNat_ne (by
          have : (',').toNat = 44 := rfl
          omega)
  | str s => exact ⟨'\"', _, rfl, by decide, by decide, by decide, by decide⟩
  | arr xs =>
    cases xs with
    | nil => exact ⟨'[', _, rfl, by decide, by decide, by decide, by decide⟩
    | cons x t => exact ⟨'[', _, rfl, by decide, by decide, by decide, by decide⟩
  | obj m =>
    cases m with
    | nil => exact ⟨Char.ofNat 123, _, rfl, by decide, by decide, by decide, by decide⟩
    | cons k v t =>
      exact ⟨Char.ofNat 123, _, rfl, by decide, by decide, by decide, by decide⟩

theorem ser_ne_nil (j : Json) : Json.ser j ≠ [] := by
  obtain ⟨c, t, hct, -⟩ := ser_head_props j
  rw [hct]
  simp

/-- Concatenation of member lists (proof-side helper). -/
def JsonObj.appendO : JsonObj → JsonObj → JsonObj
  | .nil, m => m
  | .cons k v m1, m2 => .cons k v (JsonObj.appendO m1 m2)

theorem appendO_nil (m : JsonObj) : JsonObj.appendO m .nil = m := by
  match m with
  | .nil => rfl
  | .cons k v m1 => rw [JsonObj.appendO, appendO_nil m1]

theorem hasKey_appendO (a b : JsonObj) (k : String) :
    JsonObj.hasKey (JsonObj.appendO a b) k =
      (JsonObj.hasKey a k || JsonObj.hasKey b k) := by
  match a with
  | .nil => rfl
  | .cons k0 v0 a1 =>
    rw [JsonObj.appendO, JsonObj.hasKey, hasKey_appendO a1 b k, JsonObj.hasKey,
      Bool.or_assoc]

theorem dictSet_not_mem (acc : JsonObj) (k : String) (v : Json)
    (h : JsonObj.hasKey acc k = false) :
    JsonObj.dictSet acc k v = JsonObj.appendO acc (.cons k v .nil) := by
  match acc with
  | .nil => rfl
  | .cons k0 v0 m =>
    rw [JsonObj.hasKey] at h
    simp only [Bool.or_eq_false_iff, decide_eq_false_iff_not] at h
    rw [JsonObj.dictSet, if_neg h.1, JsonObj.appendO, dictSet_not_mem m k v h.2]

theorem appendO_assoc (a b c : JsonObj) :
    JsonObj.appendO (JsonObj.appendO a b) c =
      JsonObj.appendO a (JsonObj.appendO b c) := by
  match a with
  | .nil => rfl
  | .cons k v m =>
    rw [JsonObj.appendO, JsonObj.appendO, appendO_assoc m b c, JsonObj.appendO]

theorem dictAddAll_disjoint (m : JsonObj) : ∀ acc : JsonObj,
    JsonObj.nodupKeys m = true →
    (∀ k, JsonObj.hasKey m k = true → JsonObj.hasKey acc k = false) →
    JsonObj.dictAddAll acc m = JsonObj.appendO acc m := by
  match m with
  | .nil => intro acc _ _; rw [JsonObj.dictAddAll, appendO_nil]
  | .cons k v m1 =>
    intro acc hnd hdisj
    rw [JsonObj.nodupKeys, Bool.and_eq_true] at hnd
    rw [JsonObj.dictAddAll]
    have hk : JsonObj.hasKey acc k = false :=
      hdisj k (by rw [JsonObj.hasKey]; simp)
    rw [dictSet_not_mem acc k v hk]
    rw [dictAddAll_disjoint m1 _ hnd.2 ?_]
    · rw [appendO_assoc]
      rfl
    · intro k2 hk2
      rw [hasKey_appendO]
      simp only [Bool.or_eq_false_iff]
      constructor
      · apply hdisj
        rw [JsonObj.hasKey, hk2]
        simp
      · rw [JsonObj.hasKey, JsonObj.hasKey]
        simp only [Bool.or_eq_false_iff, decide_eq_false_iff_not]
        refine ⟨?_, trivial⟩
        intro he
        subst he
        have hnk := hnd.1
        simp only [Bool.not_eq_true'] at hnk
        rw [hk2] at hnk
        exact absurd hnk (by simp)

/-- `json.loads` object construction is the identity on a member list with
distinct keys. -/
theorem dictOfMembers_nodup (m : JsonObj) (h : JsonObj.nodupKeys m = true) :
    JsonObj.dictOfMembers m = m := by
  rw [JsonObj.dictOfMembers, dictAddAll_disjoint m .nil h (fun _ _ => rfl)]
  rfl

theorem restOk_bracket (r : List Char) : restOk (']' :: r) :=
  ⟨by decide, by decide, by decide, by decide⟩

theorem restOk_comma (r : List Char) : restOk (',' :: r) :=
  ⟨by decide, by decide, by decide, by decide⟩

theorem restOk_rbrace (r : List Char) : restOk (Char.ofNat 125 :: r) :=
  ⟨by decide, by decide, by decide, by decide⟩

theorem serStr_eq (k : String) : serStr k = '\"' :: (escList k.data ++ ['\"']) := rfl

theorem serElems_cons (x : Json) (xs : JsonList) :
    Json.serElems (JsonList.cons x xs) = Json.ser x ++ Json.serElemsTail xs := rfl

theorem serElemsTail_cons (x : Json) (xs : JsonList) :
    Json.serElemsTail (JsonList.cons x xs) =
      ',' :: (Json.ser x ++ Json.serElemsTail xs) := rfl

theorem serMembers_cons (k : String) (v : Json) (m : JsonObj) :
    Json.serMembers (JsonObj.cons k v m) =
      serStr k ++ ':' :: Json.ser v ++ Json.serMembersTail m := rfl

theorem serMembersTail_cons (k : String) (v : Json) (m : JsonObj) :
    Json.serMembersTail (JsonObj.cons k v m) =
      ',' :: (serStr k ++ ':' :: Json.ser v ++ Json.serMembersTail m) := rfl

theorem num_head_props (d : Char)
    (hcase : d = '-' ∨ (48 ≤ d.toNat ∧ d.toNat ≤ 57)) :
    d ≠ Char.ofNat 123 ∧ d ≠ '[' ∧ d ≠ '\"' ∧ d ≠ 't' ∧ d ≠ 'f' ∧ d ≠ 'n' ∧
      (d = '-' ∨ d.isDigit = true) := by
  rcases hcase with rfl | ⟨hlo, hhi⟩
  · exact ⟨by decide, by decide, by decide, by decide, by decide, by decide,
      Or.inl rfl⟩
  · refine ⟨?_, ?_, ?_, ?_, ?_, ?_, Or.inr ((char_isDigit_iff d).mpr ⟨hlo, hhi⟩)⟩
    · exact char_ne_of_toNat_ne (by
        have : (Char.ofNat 123).toNat = 123 := rfl
        omega)
    · exact char_ne_of_toNat_ne (by
        have : ('[').toNat = 91 := rfl
        omega)
    · exact char_ne_of_toNat_ne (by
        have : ('\"').toNat = 34 := rfl
        omega)
    · exact char_ne_of_toNat_ne (by
        have : ('t').toNat = 116 := rfl
        omega)
    · exact char_ne_of_toNat_ne (by
        have : ('f').toNat = 102 := rfl
        omega)
    · exact char_ne_of_toNat_ne (by
        have : ('n').toNat = 110 := rfl
        omega)

mutual
/-- The parser inverts the serializer on any valid value, leaving a
non-extending suffix untouched. -/
theorem parseValueF_ser (j : Json) (hval : Json.validb j = true) (rest : List Char)
    (hrest : restOk rest) (fuel : Nat)
    (hfuel : 2 * (Json.ser j ++ rest).length + 2 ≤ fuel) :
    parseValueF fuel (Json.ser j ++ rest) = some (j, rest) := by
  cases fuel with
  | zero =>
    exfalso
    omega
  | succ f =>
    cases j with
    | null =>
      show parseValueF (f + 1) ('n' :: 'u' :: 'l' :: 'l' :: rest) = some (Json.null, rest)
      rw [parseValueF_succ_other f _ _ (by decide) (by decide), parseScalar_null]
    | bool b =>
      cases b with
      | true =>
        show parseValueF (f + 1) ('t' :: 'r' :: 'u' :: 'e' :: rest) =
          some (Json.bool true, rest)
        rw [parseValueF_succ_other f _ _ (by decide) (by decide), parseScalar_true]
      | false =>
        show parseValueF (f + 1) ('f' :: 'a' :: 'l' :: 's' :: 'e' :: rest) =
          some (Json.bool false, rest)
        rw [parseValueF_succ_other f _ _ (by decide) (by decide), parseScalar_false]
    | num n =>
      obtain ⟨d, t, hd, hcase⟩ := intDigits_head_digit_or_minus n
      obtain ⟨hn1, hn2, hn3, hn4, hn5, hn6, hn7⟩ := num_head_props d hcase
      have hser : Json.ser (Json.num n) ++ rest = d :: (t ++ rest) := by
        show intDigits n ++ rest = _
        rw [hd]
        simp
      rw [hser, parseValueF_succ_other f _ _ hn1 hn2,
        parseScalar_num d _ hn3 hn4 hn5 hn6 hn7]
      have hback : d :: (t ++ rest) = intDigits n ++ rest := by
        rw [hd]
        simp
      rw [hback, parseIntToken_intDigits n rest hrest]
      rfl
    | str s =>
      have hser : Json.ser (Json.str s) ++ rest =
          '\"' :: (escList s.data ++ '\"' :: rest) := by
        show ('\"' :: (escList s.data ++ ['\"'])) ++ rest = _
        simp
      rw [hser, parseValueF_succ_other f _ _ (by decide) (by decide),
        parseScalar_quote, parseStringBody_esc]
      show some (Json.str (List.asString s.data), rest) = some (Json.str s, rest)
      rw [asString_data]
    | arr xs =>
      cases xs with
      | nil =>
        show parseValueF (f + 1) ('[' :: (']' :: rest)) = some (Json.arr .nil, rest)
        rw [parseValueF_succ_bracket, dropWhile_cons_false (by decide)]
        rfl
      | cons x xs =>
        have hser : Json.ser (Json.arr (JsonList.cons x xs)) ++ rest =
            '[' :: (Json.serElems (JsonList.cons x xs) ++ ']' :: rest) := by
          show ('[' :: (Json.serElems (JsonList.cons x xs) ++ [']'])) ++ rest = _
          simp
        rw [hser, parseValueF_succ_bracket]
        obtain ⟨c0, t0, hc0, hws, hbr, hrb, hcm⟩ := ser_head_props x
        have hEd : Json.serElems (JsonList.cons x xs) ++ ']' :: rest =
            c0 :: (t0 ++ Json.serElemsTail xs ++ ']' :: rest) := by
          show (Json.ser x ++ Json.serElemsTail xs) ++ ']' :: rest = _
          rw [hc0]
          simp
        rw [hEd, dropWhile_cons_false hws]
        dsimp only
        rw [if_neg hbr, ← hEd]
        have hvx : JsonList.validb (JsonList.cons x xs) = true := hval
        rw [parseElemsF_ser x xs hvx rest f (by
          have hL : (Json.ser (Json.arr (JsonList.cons x xs)) ++ rest).length =
              (Json.serElems (JsonList.cons x xs) ++ ']' :: rest).length + 1 := by
            rw [hser]
            simp
          omega)]
        rfl
    | obj m =>
      cases m with
      | nil =>
        show parseValueF (f + 1) (Char.ofNat 123 :: (Char.ofNat 125 :: rest)) =
          some (Json.obj .nil, rest)
        rw [parseValueF_succ_brace, dropWhile_cons_false (by decide)]
        rfl
      | cons k v m =>
        have hser : Json.ser (Json.obj (JsonObj.cons k v m)) ++ rest =
            Char.ofNat 123 ::
              (Json.serMembers (JsonObj.cons k v m) ++ Char.ofNat 125 :: rest) := by
          show (Char.ofNat 123 ::
            (Json.serMembers (JsonObj.cons k v m) ++ [Char.ofNat 125])) ++ rest = _
          simp
        rw [hser, parseValueF_succ_brace]
        have hMd : Json.serMembers (JsonObj.cons k v m) ++ Char.ofNat 125 :: rest =
            '\"' :: ((escList k.data ++ ['\"']) ++
              ':' :: Json.ser v ++ Json.serMembersTail m ++ Char.ofNat 125 :: rest) := by
          show (serStr k ++ ':' :: Json.ser v ++ Json.serMembersTail m) ++
            Char.ofNat 125 :: rest = _
          rw [serStr_eq]
          simp
        rw [hMd, dropWhile_cons_false (by decide)]
        dsimp only
        rw [if_neg (by decide), ← hMd]
        have hvm : JsonObj.nodupKeys (JsonObj.cons k v m) = true ∧
            JsonObj.validb (JsonObj.cons k v m) = true := by
          have he : Json.validb (Json.obj (JsonObj.cons k v m)) =
              (JsonObj.nodupKeys (JsonObj.cons k v m) &&
                JsonObj.validb (JsonObj.cons k v m)) := rfl
          rw [he, Bool.and_eq_true] at hval
          exact hval
        rw [parseMembersF_ser k v m hvm.2 rest f (by
          have hL : (Json.ser (Json.obj (JsonObj.cons k v m)) ++ rest).length =
              (Json.serMembers (JsonObj.cons k v m) ++ Char.ofNat 125 :: rest).length
                + 1 := by
            rw [hser]
            simp
          omega)]
        show some (Json.obj (JsonObj.dictOfMembers (JsonObj.cons k v m)), rest) =
          some (Json.obj (JsonObj.cons k v m), rest)
        rw [dictOfMembers_nodup _ hvm.1]
termination_by sizeOf j

/-- The element parser inverts the serializer on a non-empty array body. -/
theorem parseElemsF_ser (x : Json) (xs : JsonList)
    (hval : JsonList.validb (JsonList.cons x xs) = true) (rest : List Char)
    (fuel : Nat)
    (hfuel :
      2 * (Json.serElems (JsonList.cons x xs) ++ ']' :: rest).length + 3 ≤ fuel) :
    parseElemsF fuel (Json.serElems (JsonList.cons x xs) ++ ']' :: rest) =
      some (JsonList.cons x xs, rest) := by
  cases fuel with
  | zero =>
    exfalso
    omega
  | succ f =>
    rw [parseElemsF_succ]
    have hE : Json.serElems (JsonList.cons x xs) ++ ']' :: rest =
        Json.ser x ++ (Json.serElemsTail xs ++ ']' :: rest) := by
      show (Json.ser x ++ Json.serElemsTail xs) ++ ']' :: rest = _
      simp
    have hvx : Json.validb x = true ∧ JsonList.validb xs = true := by
      have he : JsonList.validb (JsonList.cons x xs) =
          (Json.validb x && JsonList.validb xs) := rfl
      rw [he, Bool.and_eq_true] at hval
      exact hval
    have hrest2 : restOk (Json.serElemsTail xs ++ ']' :: rest) := by
      cases xs with
      | nil => exact restOk_bracket rest
      | cons y ys =>
        have hT : Json.serElemsTail (JsonList.cons y ys) ++ ']' :: rest =
            ',' :: ((Json.ser y ++ Json.serElemsTail ys) ++ ']' :: rest) := by
          show (',' :: (Json.ser y ++ Json.serElemsTail ys)) ++ ']' :: rest = _
          simp
        rw [hT]
        exact restOk_comma _
    rw [hE, parseValueF_ser x hvx.1 _ hrest2 f (by
      have hL : (Json.serElems (JsonList.cons x xs) ++ ']' :: rest).length =
          (Json.ser x ++ (Json.serElemsTail xs ++ ']' :: rest)).length := by
        rw [hE]
      omega)]
    dsimp only
    cases xs with
    | nil =>
      have hT : Json.serElemsTail JsonList.nil ++ ']' :: rest = ']' :: rest := by
        show [] ++ ']' :: rest = _
        simp
      rw [hT, dropWhile_cons_false (by decide)]
      rfl
    | cons y ys =>
      have hT : Json.serElemsTail (JsonList.cons y ys) ++ ']' :: rest =
          ',' :: (Json.serElems (JsonList.cons y ys) ++ ']' :: rest) := by
        rw [serElemsTail_cons, serElems_cons]
        simp
      rw [hT, dropWhile_cons_false (by decide)]
      dsimp only
      rw [if_pos rfl]
      obtain ⟨c0, t0, hc0, hws, hbr, hrb, hcm⟩ := ser_head_props y
      have hYd : Json.serElems (JsonList.cons y ys) ++ ']' :: rest =
          c0 :: (t0 ++ (Json.serElemsTail ys ++ ']' :: rest)) := by
        rw [serElems_cons, hc0]
        simp
      rw [hYd, dropWhile_cons_false hws, ← hYd]
      rw [parseElemsF_ser y ys hvx.2 rest f (by
        have h1 : 1 ≤ (Json.ser x).length :=
          List.length_pos.mpr (ser_ne_nil x)
        have hL : (Json.serElems (JsonList.cons x (JsonList.cons y ys)) ++
            ']' :: rest).length =
            (Json.ser x).length + 1 +
              (Json.serElems (JsonList.cons y ys) ++ ']' :: rest).length := by
          rw [hE, hT]
          simp only [List.length_append, List.length_cons]
          omega
        omega)]
      rfl
termination_by sizeOf (JsonList.cons x xs)

/-- The member parser inverts the serializer on a non-empty object body. -/
theorem parseMembersF_ser (k : String) (v : Json) (m : JsonObj)
    (hval : JsonObj.validb (JsonObj.cons k v m) = true) (rest : List Char)
    (fuel : Nat)
    (hfuel : 2 * (Json.serMembers (JsonObj.cons k v m) ++
      Char.ofNat 125 :: rest).length + 3 ≤ fuel) :
    parseMembersF fuel (Json.serMembers (JsonObj.cons k v m) ++
      Char.ofNat 125 :: rest) = some (JsonObj.cons k v m, rest) := by
  cases fuel with
  | zero =>
    exfalso
    omega
  | succ f =>
    have hM : Json.serMembers (JsonObj.cons k v m) ++ Char.ofNat 125 :: rest =
        '\"' :: (escList k.data ++ '\"' ::
          (':' :: (Json.ser v ++ (Json.serMembersTail m ++ Char.ofNat 125 :: rest)))) := by
      show (serStr k ++ ':' :: Json.ser v ++ Json.serMembersTail m) ++
        Char.ofNat 125 :: rest = _
      rw [serStr_eq]
      simp
    rw [hM, parseMembersF_succ_quote, parseStringBody_esc]
    dsimp only
    rw [dropWhile_cons_false (by decide)]
    dsimp only
    rw [if_pos rfl]
    obtain ⟨c0, t0, hc0, hws, hbr, hrb, hcm⟩ := ser_head_props v
    have hV : Json.ser v ++ (Json.serMembersTail m ++ Char.ofNat 125 :: rest) =
        c0 :: (t0 ++ (Json.serMembersTail m ++ Char.ofNat 125 :: rest)) := by
      rw [hc0]
      simp
    rw [hV, dropWhile_cons_false hws, ← hV]
    have hvv : Json.validb v = true ∧ JsonObj.validb m = true := by
      have he : JsonObj.validb (JsonObj.cons k v m) =
          (Json.validb v && JsonObj.validb m) := rfl
      rw [he, Bool.and_eq_true] at hval
      exact hval
    have hrest2 : restOk (Json.serMembersTail m ++ Char.ofNat 125 :: rest) := by
      cases m with
      | nil => exact restOk_rbrace rest
      | cons k2 v2 m2 =>
        have hT : Json.serMembersTail (JsonObj.cons k2 v2 m2) ++
            Char.ofNat 125 :: rest =
            ',' :: ((serStr k2 ++ ':' :: Json.ser v2 ++ Json.serMembersTail m2) ++
              Char.ofNat 125 :: rest) := by
          show (',' :: (serStr k2 ++ ':' :: Json.ser v2 ++ Json.serMembersTail m2)) ++
            Char.ofNat 125 :: rest = _
          simp
        rw [hT]
        exact restOk_comma _
    rw [parseValueF_ser v hvv.1 _ hrest2 f (by
      have h1 : 0 ≤ (escList k.data).length := by omega
      have hL : (Json.serMembers (JsonObj.cons k v m) ++
          Char.ofNat 125 :: rest).length =
          (escList k.data).length + 3 +
            (Json.ser v ++ (Json.serMembersTail m ++ Char.ofNat 125 :: rest)).length := by
        conv_lhs => rw [hM]
        simp
        omega
      omega)]
    dsimp only
    cases m with
    | nil =>
      have hT : Json.serMembersTail JsonObj.nil ++ Char.ofNat 125 :: rest =
          Char.ofNat 125 :: rest := by
        show [] ++ Char.ofNat 125 :: rest = _
        simp
      rw [hT, dropWhile_cons_false (by decide)]
      rfl
    | cons k2 v2 m2 =>
      have hT : Json.serMembersTail (JsonObj.cons k2 v2 m2) ++
          Char.ofNat 125 :: rest =
          ',' :: (Json.serMembers (JsonObj.cons k2 v2 m2) ++
            Char.ofNat 125 :: rest) := by
        rw [serMembersTail_cons, serMembers_cons]
        simp
      rw [hT, dropWhile_cons_false (by decide)]
      dsimp only
      rw [if_pos rfl]
      have hMd2 : Json.serMembers (JsonObj.cons k2 v2 m2) ++ Char.ofNat 125 :: rest =
          '\"' :: ((escList k2.data ++ ['\"']) ++
            ':' :: Json.ser v2 ++ Json.serMembersTail m2 ++ Char.ofNat 125 :: rest) := by
        show (serStr k2 ++ ':' :: Json.ser v2 ++ Json.serMembersTail m2) ++
          Char.ofNat 125 :: rest = _
        rw [serStr_eq]
        simp
      rw [hMd2, dropWhile_cons_false (by decide), ← hMd2]
      rw [parseMembersF_ser k2 v2 m2 hvv.2 rest f (by
        have h1 : 1 ≤ (Json.ser v).length :=
          List.length_pos.mpr (ser_ne_nil v)
        have hL : (Json.serMembers (JsonObj.cons k v (JsonObj.cons k2 v2 m2)) ++
            Char.ofNat 125 :: rest).length =
            (escList k.data).length + 3 + (Json.ser v).length + 1 +
              (Json.serMembers (JsonObj.cons k2 v2 m2) ++
                Char.ofNat 125 :: rest).length := by
          rw [hM, hT]
          simp only [List.length_append, List.length_cons]
          omega
        omega)]
      rfl
termination_by sizeOf (JsonObj.cons k v m)
end

/-- Serializing a valid value and parsing it back returns the value:
`json.loads(JSON.stringify-style output)` round-trips. -/
theorem jsonParse_serialize (j : Json) (hval : Json.validb j = true) :
    jsonParse (jsonSerialize j) = some j := by
  obtain ⟨c0, t0, hc0, hws, hbr, hrb, hcm⟩ := ser_head_props j
  have hP : parseValueF (2 * (Json.ser j).length + 2) (Json.ser j) =
      some (j, []) := by
    have h := parseValueF_ser j hval [] trivial (2 * (Json.ser j).length + 2)
      (by simp)
    rwa [List.append_nil] at h
  show (match parseValueF (2 * ((Json.ser j).dropWhile jsonWs).length + 2)
      ((Json.ser j).dropWhile jsonWs) with
    | some (v, r) => if r.dropWhile jsonWs = [] then some v else none
    | none => none) = some j
  rw [hc0, dropWhile_cons_false hws, ← hc0, hP]
  rfl

/-! ## Per-claim helper predicates

Sufficient conditions, phrased on the model's own functions, under which a
handler completes without an uncaught exception. -/

/-- The decoded auth cookie (if any) can safely be used as a dict: absent,
falsy, or a JSON object (`cookie_data.get(...)` raises on anything else). -/
def cookieShapeOk (name : String) (jar : CookieJar) : Bool :=
  match _read_auth_cookie name jar with
  | none => true
  | some cd =>
    match cd with
    | .obj _ => true
    | _ => !cd.pyTruthy

/-- Whether a `json.loads` result is a dict. -/
def jsonIsObj : Json → Bool
  | .obj _ => true
  | _ => false

/-- The who-am-I body's `email` claim is a string or falsy (a truthy
non-string email would crash `urllib.parse.quote`). -/
def emailFieldOk : Json → Bool
  | .obj m =>
    match JsonObj.get m "email" with
    | some (.str _) => true
    | e => !pyTruthyOpt e
  | _ => false

/-- The who-am-I call completed and, when it returned 200, its body is a
JSON dict with a usable email field. -/
def userRespOk : UpstreamCallResult → Bool
  | .connError => false
  | .resp st body =>
    if st = 200 then
      match jsonParse body with
      | some u => jsonIsObj u && emailFieldOk u
      | none => false
    else true

/-- The directory lookup, when it returned 200, has a JSON dict body (its
`.json()` call sits outside the `try`). -/
def dirRespOk : UpstreamCallResult → Bool
  | .connError => true
  | .resp st body =>
    if st = 200 then
      match jsonParse body with
      | some d => jsonIsObj d
      | none => false
    else true

/-- The upsert call completed (it is not guarded by `try`). -/
def upsertOk : UpstreamCallResult → Bool
  | .connError => false
  | .resp _ _ => true

/-- All of `auth_sync_profile`'s unguarded steps succeed. -/
def syncPreOk (name : String) (jar : CookieJar) (env : SyncEnv) : Bool :=
  cookieShapeOk name jar && userRespOk env.userResp && dirRespOk env.dirResp &&
    upsertOk env.upsertResp

/-! ## Helper lemmas for the cookie and signout claims -/

theorem cookieShapeOk_cases (name : String) (jar : CookieJar)
    (h : cookieShapeOk name jar = true) :
    _read_auth_cookie name jar = none ∨
    (∃ cd, _read_auth_cookie name jar = some cd ∧ cd.pyTruthy = false) ∨
    (∃ m, _read_auth_cookie name jar = some (Json.obj m)) := by
  unfold cookieShapeOk at h
  cases hrc : _read_auth_cookie name jar with
  | none => exact .inl rfl
  | some cd =>
    rw [hrc] at h
    cases cd with
    | obj m => exact .inr (.inr ⟨m, rfl⟩)
    | null => exact .inr (.inl ⟨_, rfl, by simpa using h⟩)
    | bool b => exact .inr (.inl ⟨_, rfl, by simpa using h⟩)
    | num n => exact .inr (.inl ⟨_, rfl, by simpa using h⟩)
    | str s => exact .inr (.inl ⟨_, rfl, by simpa using h⟩)
    | arr xs => exact .inr (.inl ⟨_, rfl, by simpa using h⟩)

theorem natDigits_lt10 (n : Nat) (h : n < 10) : natDigits n = [digitChar n] := by
  rw [natDigits_eq_digitsRep]
  unfold digitsRep
  rw [if_pos h]

theorem chunkName_data (name : String) (i : Nat) :
    (chunkName name i).data = name.data ++ '.' :: natDigits i := by
  show (name.data ++ ['.']) ++ natDigits i = _
  simp

theorem chunkName_inj (name : String) (i j : Nat)
    (h : chunkName name i = chunkName name j) : i = j := by
  have hd : name.data ++ '.' :: natDigits i = name.data ++ '.' :: natDigits j := by
    rw [← chunkName_data, ← chunkName_data, h]
  have h1 : '.' :: natDigits i = '.' :: natDigits j := List.append_cancel_left hd
  have h2 : natDigits i = natDigits j := by injection h1
  have h3 : digitsVal (digitsRep i) = digitsVal (digitsRep j) := by
    rw [← natDigits_eq_digitsRep, ← natDigits_eq_digitsRep, h2]
  rwa [digitsVal_digitsRep, digitsVal_digitsRep] at h3

theorem chunkName_ne (name : String) (i : Nat) : chunkName name i ≠ name := by
  intro h
  have hd := congrArg String.data h
  rw [chunkName_data] at hd
  have hpos : 0 < (natDigits i).length := by
    rw [natDigits_eq_digitsRep]
    exact List.length_pos.mpr (digitsRep_ne_nil i)
  have hlen := congrArg List.length hd
  rw [List.length_append, List.length_cons] at hlen
  omega

/-! ## Claim theorems -/

/-- **C1.** Refuted (code bug): `_build_response` builds its header dict
from `httpx`'s `items()` view, which merges duplicate header keys into one
comma-joined value; an upstream response carrying two `Set-Cookie`
instances is forwarded as a single merged `set-cookie` header instead of
two separate instances. -/
theorem C1_build_response_merges_set_cookie :
    (proxy_entra
        ⟨200, [("Set-Cookie", "a=1"), ("Set-Cookie", "b=2")], []⟩).headers =
      [("set-cookie", "a=1, b=2")] := by decide

/-- **C2 (amended).** For every signout request whose auth cookie is
absent, falsy, or a JSON dict, and whose upstream logout call (when made)
completes with any HTTP status, the response carries the `{ok: true}`
body and expires exactly the base cookie and chunks `.0`..`.4`.  (An
unreachable upstream instead raises out of the handler; see the
counterexample.) -/
theorem C2_signout_clears_even_on_error_status (name : String) (jar : CookieJar)
    (st : Nat) (body : String) (h : cookieShapeOk name jar = true) :
    auth_signout name jar (.resp st body) =
      .ok { okBody := true, deleted := signoutDeleted name } := by
  unfold auth_signout
  rcases cookieShapeOk_cases name jar h with hrc | ⟨cd, hrc, hcf⟩ | ⟨m, hrc⟩
  · rw [hrc]
  · rw [hrc]
    simp [hcf]
  · rw [hrc]
    cases htr : (Json.obj m).pyTruthy with
    | false => simp [htr]
    | true =>
      cases hpt : pyTruthyOpt (JsonObj.get m "access_token") with
      | false => simp [htr, Json.dictGet, hpt]
      | true => simp [htr, Json.dictGet, hpt]

theorem C2_signout_clears_witness :
    cookieShapeOk "sb" [] = true ∧
    auth_signout "sb" [] (.resp 502 "err") =
      .ok { okBody := true, deleted := signoutDeleted "sb" } :=
  ⟨by decide, C2_signout_clears_even_on_error_status "sb" [] 502 "err" (by decide)⟩

/-- **C2 counterexample.** With a truthy session cookie holding a truthy
`access_token`, an unreachable upstream makes the unguarded
`client.post(...)` raise: the handler errors out and clears nothing,
contradicting "even when the upstream is unreachable". -/
theorem C2_signout_unreachable_counterexample :
    auth_signout "sb" [("sb", "\x7b\"access_token\":\"t\"\x7d")]
      UpstreamCallResult.connError = .error () := by decide

/-- **C9.** A present-but-empty base auth cookie is treated as absent:
the handler falls back to the contiguous chunk cookies, and with no
chunks (or only empty ones) it reports no session (`none`) rather than
an error. -/
theorem C9_empty_cookie_chunk_fallback (name : String) (jar : CookieJar)
    (h : cookieGet jar name = some "") :
    _read_auth_cookie name jar =
      (if chunkCookies name jar = [] then none
       else if String.join (chunkCookies name jar) = "" then none
       else _decode_cookie_value (String.join (chunkCookies name jar))) := by
  unfold _read_auth_cookie
  rw [h]
  by_cases hc : chunkCookies name jar = []
  · simp [hc]
  · by_cases hj : String.join (chunkCookies name jar) = "" <;> simp [hc, hj]

theorem C9_empty_cookie_chunk_fallback_witness :
    cookieGet [("a", ""), ("a.0", "X")] "a" = some "" ∧
    _read_auth_cookie "a" [("a", ""), ("a.0", "X")] =
      (if chunkCookies "a" [("a", ""), ("a.0", "X")] = [] then none
       else if String.join (chunkCookies "a" [("a", ""), ("a.0", "X")]) = "" then none
       else _decode_cookie_value
         (String.join (chunkCookies "a" [("a", ""), ("a.0", "X")]))) :=
  ⟨by decide, C9_empty_cookie_chunk_fallback "a" [("a", ""), ("a.0", "X")] (by decide)⟩

theorem signout_ok_inv (p : Except Unit Unit) (name : String) (r : SignoutResp)
    (h : (match p with
          | Except.error e => Except.error e
          | Except.ok _ =>
            Except.ok { okBody := true, deleted := signoutDeleted name }) =
         Except.ok r) :
    r = { okBody := true, deleted := signoutDeleted name } := by
  cases p with
  | error e => exact absurd h (by simp)
  | ok a =>
    injection h with h2
    exact h2.symm

/-- **C10.** A signout response deletes exactly the base cookie and the
chunk names `.0`..`.4`; every chunk name `.5` and beyond is untouched. -/
theorem C10_signout_frame (name : String) (jar : CookieJar)
    (logout : UpstreamCallResult) (r : SignoutResp)
    (h : auth_signout name jar logout = .ok r) :
    (∀ s, s ∈ r.deleted ↔ (s = name ∨ ∃ i, i < 5 ∧ s = chunkName name i)) ∧
    (∀ i, 5 ≤ i → chunkName name i ∉ r.deleted) := by
  have hdel : r.deleted = signoutDeleted name := by
    simp only [auth_signout] at h
    rw [signout_ok_inv _ name r h]
  constructor
  · intro s
    rw [hdel]
    unfold signoutDeleted
    simp only [List.mem_cons, List.mem_map, List.mem_range]
    constructor
    · rintro (rfl | ⟨i, hi, rfl⟩)
      · exact .inl rfl
      · exact .inr ⟨i, hi, rfl⟩
    · rintro (rfl | ⟨i, hi, rfl⟩)
      · exact .inl rfl
      · exact .inr ⟨i, hi, rfl⟩
  · intro i hi hmem
    rw [hdel] at hmem
    unfold signoutDeleted at hmem
    simp only [List.mem_cons, List.mem_map, List.mem_range] at hmem
    rcases hmem with heq | ⟨j, hj, heq⟩
    · exact chunkName_ne name i heq
    · have := chunkName_inj name j i heq
      omega

theorem C10_signout_frame_witness :
    auth_signout "a" [] (.resp 200 "") =
      .ok { okBody := true, deleted := signoutDeleted "a" } ∧
    (∀ s, s ∈ (SignoutResp.mk true (signoutDeleted "a")).deleted ↔
      (s = "a" ∨ ∃ i, i < 5 ∧ s = chunkName "a" i)) ∧
    (∀ i, 5 ≤ i →
      chunkName "a" i ∉ (SignoutResp.mk true (signoutDeleted "a")).deleted) :=
  ⟨by decide, C10_signout_frame "a" [] (.resp 200 "")
    (SignoutResp.mk true (signoutDeleted "a")) (by decide)⟩

/-- **C4 (amended).** With no `error` query parameter the callback serves
the pre-built static page when present and otherwise the bootstrap page
with no inline tokens; it performs no server-side code exchange (the
handler makes no upstream call and never reads `code`). -/
theorem C4_callback_serves_page_without_exchange (origin : String)
    (q : CallbackQuery) (staticEx : Bool)
    (herr : truthyStrOpt q.error = false) :
    auth_callback origin q staticEx =
      (if staticEx then .staticPage else .bootstrapPage none) := by
  unfold auth_callback
  rw [herr]
  simp

theorem C4_callback_witness :
    truthyStrOpt (CallbackQuery.mk none none (some "authcode")).error = false ∧
    auth_callback "http://localhost:8000"
        (CallbackQuery.mk none none (some "authcode")) true =
      (if true then .staticPage else .bootstrapPage none) :=
  ⟨by decide, C4_callback_serves_page_without_exchange "http://localhost:8000"
    (CallbackQuery.mk none none (some "authcode")) true (by decide)⟩

/-- **C4 counterexample.** A callback request carrying a `code` and no
`error` gets the bootstrap page with `none` inline tokens: no exchange
result is passed, refuting the claimed server-side code exchange. -/
theorem C4_callback_code_ignored :
    auth_callback "http://localhost:8000"
      (CallbackQuery.mk none none (some "authcode123")) false =
      .bootstrapPage none := by decide

/-- **C8 (amended).** `expires_at`/`expires_in` of every built session
satisfy: `expires_at` is the token's `exp` claim taken verbatim when one
is present (the default `now + 3600` otherwise), and
`expires_in = max(expires_at - now, 0)` whenever the claim is numeric —
including JSON booleans, which Python subtracts as the ints 1/0 — and in
the default case; for any other non-numeric claim the assignment to
`expires_at` lands but the subtraction raises, and `expires_in` stays at
its default 3600. -/
theorem C8_session_expiry_invariant (tok : String) (now : Int) :
    (∃ e : Int, (sessionExpiry tok now).1 = Json.num e ∧
      (sessionExpiry tok now).2 = max (e - now) 0) ∨
    (∃ b : Bool, (sessionExpiry tok now).1 = Json.bool b ∧
      (sessionExpiry tok now).2 = max ((if b then 1 else 0) - now) 0) ∨
    ((sessionExpiry tok now).2 = 3600 ∧
      (∀ e : Int, (sessionExpiry tok now).1 ≠ Json.num e) ∧
      (∀ b : Bool, (sessionExpiry tok now).1 ≠ Json.bool b)) := by
  rcases hsp : sessionExpiry tok now with ⟨ea, ei⟩
  dsimp only
  simp only [sessionExpiry] at hsp
  repeat' split at hsp
  all_goals try (simp_all; done)
  all_goals injection hsp with h1 h2
  all_goals subst h1
  all_goals subst h2
  all_goals first
    | exact .inl ⟨now + 3600, rfl, by omega⟩
    | exact .inl ⟨_, rfl, rfl⟩
    | exact .inr (.inl ⟨_, rfl, rfl⟩)
    | exact .inr (.inr ⟨rfl, fun e h => by cases h, fun b h => by cases h⟩)

/-- **C8 counterexample.** A JWT whose payload is `\x7b"exp":"abc"\x7d`:
the non-numeric claim is assigned to `expires_at` as-is while
`expires_in` stays 3600, so `expires_at` is neither the numeric claim nor
`now + 3600` and `expires_in` is not `max(expires_at - now, 0)`. -/
theorem C8_nonnumeric_exp_counterexample :
    sessionExpiry "x.eyJleHAiOiJhYmMifQ.y" 0 = (Json.str "abc", 3600) := by decide

theorem syncUserPhase_ok (env : SyncEnv) (hu : userRespOk env.userResp = true)
    (hdir : dirRespOk env.dirResp = true) (hup : upsertOk env.upsertResp = true) :
    ∃ r, syncUserPhase env = .ok r := by
  unfold syncUserPhase
  cases henv : env.userResp with
  | connError =>
    rw [henv] at hu
    exact absurd hu (by decide)
  | resp st body =>
    rw [henv] at hu
    simp only [userRespOk] at hu
    dsimp only
    by_cases hst : st = 200
    case neg => exact ⟨_, by rw [if_pos hst]⟩
    rw [if_neg (not_not_intro hst)]
    rw [if_pos hst] at hu
    cases hj : jsonParse body with
    | none =>
      rw [hj] at hu
      exact absurd hu (by decide)
    | some u =>
      rw [hj] at hu
      dsimp only at hu ⊢
      rw [Bool.and_eq_true] at hu
      obtain ⟨hobj, hem⟩ := hu
      cases u with
      | obj m2 =>
        dsimp only [Json.dictGet]
        by_cases hpt : pyTruthyOpt (JsonObj.get m2 "email") = true
        case neg => exact ⟨_, by rw [if_pos hpt]⟩
        rw [if_neg (not_not_intro hpt)]
        cases hget : JsonObj.get m2 "email" with
        | none =>
          rw [hget] at hpt
          exact absurd hpt (by decide)
        | some v =>
          rw [hget] at hpt
          simp only [emailFieldOk] at hem
          rw [hget] at hem
          cases v with
          | str sv =>
            dsimp only
            cases henv2 : env.dirResp with
            | connError => exact ⟨_, rfl⟩
            | resp dst dbody =>
              rw [henv2] at hdir
              simp only [dirRespOk] at hdir
              dsimp only
              by_cases hdst : dst = 200
              case neg => exact ⟨_, by rw [if_pos hdst]⟩
              rw [if_neg (not_not_intro hdst)]
              rw [if_pos hdst] at hdir
              cases hjd : jsonParse dbody with
              | none =>
                rw [hjd] at hdir
                exact absurd hdir (by decide)
              | some d =>
                rw [hjd] at hdir
                dsimp only at hdir ⊢
                cases d with
                | obj m3 =>
                  dsimp only [Json.dictGet]
                  cases henv3 : env.upsertResp with
                  | connError =>
                    rw [henv3] at hup
                    exact absurd hup (by decide)
                  | resp ust ubody => exact ⟨_, rfl⟩
                | null => exact absurd hdir (by decide)
                | bool b3 => simp [jsonIsObj] at hdir
                | num n3 => simp [jsonIsObj] at hdir
                | str s3 => simp [jsonIsObj] at hdir
                | arr a3 => simp [jsonIsObj] at hdir
          | null =>
            dsimp only at hem
            rw [hpt] at hem
            exact absurd hem (by decide)
          | bool bv =>
            dsimp only at hem
            rw [hpt] at hem
            exact absurd hem (by decide)
          | num nv =>
            dsimp only at hem
            rw [hpt] at hem
            exact absurd hem (by decide)
          | arr av =>
            dsimp only at hem
            rw [hpt] at hem
            exact absurd hem (by decide)
          | obj ov =>
            dsimp only at hem
            rw [hpt] at hem
            exact absurd hem (by decide)
      | null => exact absurd hobj (by decide)
      | bool b2 => simp [jsonIsObj] at hobj
      | num n2 => simp [jsonIsObj] at hobj
      | str s2 => simp [jsonIsObj] at hobj
      | arr a2 => simp [jsonIsObj] at hobj

theorem sync_no_cookie_token_ok (env : SyncEnv) (authHeader : Option String)
    (hu : userRespOk env.userResp = true) (hdir : dirRespOk env.dirResp = true)
    (hup : upsertOk env.upsertResp = true) :
    ∃ r, (if ¬((if false = true then true
        else match bearerToken authHeader with
          | some t => decide (t ≠ "")
          | none => false) = true) then Except.ok (⟨some "no_token"⟩ : SyncOkResp)
      else syncUserPhase env) = .ok r := by
  rw [if_neg (show ¬(false = true) by decide)]
  cases hbt : bearerToken authHeader with
  | none => exact ⟨_, by rw [if_pos (show ¬(false = true) by decide)]⟩
  | some t =>
    by_cases hte : t = ""
    · exact ⟨_, by rw [if_pos (by simp [hte])]⟩
    · rw [if_neg (by simp [hte])]
      exact syncUserPhase_ok env hu hdir hup

/-- **C3 (amended).** Under preconditions ruling out the handler's
unguarded failure points (AuthDB who-am-I call reachable with a parseable
dict body and usable email, directory body parseable when 200, upsert
reachable, decodable cookie), every sync-profile request gets a
non-error `{ok: true}` response, with a `reason` on early exit.
Outside those preconditions the handler raises (AuthDB unreachable,
malformed JSON, non-dict bodies, non-string truthy email, upsert
unreachable): see the counterexample. -/
theorem C3_sync_profile_best_effort (dirUrl name : String) (jar : CookieJar)
    (authHeader : Option String) (env : SyncEnv)
    (h : syncPreOk name jar env = true) :
    ∃ r, auth_sync_profile dirUrl name jar authHeader env = .ok r := by
  unfold syncPreOk at h
  rw [Bool.and_eq_true, Bool.and_eq_true, Bool.and_eq_true] at h
  obtain ⟨⟨⟨hck, hu⟩, hdir⟩, hup⟩ := h
  unfold auth_sync_profile
  by_cases hd : dirUrl = ""
  · rw [if_pos hd]
    exact ⟨_, rfl⟩
  rw [if_neg hd]
  dsimp only
  rcases cookieShapeOk_cases name jar hck with hrc | ⟨cd, hrc, hcf⟩ | ⟨m, hrc⟩
  · rw [hrc]
    exact sync_no_cookie_token_ok env authHeader hu hdir hup
  · rw [hrc]
    dsimp only
    rw [if_neg (by simp [hcf])]
    exact sync_no_cookie_token_ok env authHeader hu hdir hup
  · rw [hrc]
    dsimp only
    by_cases htr : (Json.obj m).pyTruthy = true
    · rw [if_pos htr]
      dsimp only [Json.dictGet]
      by_cases hpt : pyTruthyOpt (JsonObj.get m "access_token") = true
      · rw [if_pos hpt]
        rw [if_neg (show ¬¬(true = true) by decide)]
        exact syncUserPhase_ok env hu hdir hup
      · rw [if_neg hpt]
        exact sync_no_cookie_token_ok env authHeader hu hdir hup
    · rw [if_neg htr]
      exact sync_no_cookie_token_ok env authHeader hu hdir hup

theorem C3_sync_profile_best_effort_witness :
    syncPreOk "sb" [] ⟨.resp 200 "\x7b\"id\":\"u1\",\"email\":\"\"\x7d",
        .connError, .resp 204 ""⟩ = true ∧
    ∃ r, auth_sync_profile "http://dir" "sb" [] (some "Bearer tkn")
        ⟨.resp 200 "\x7b\"id\":\"u1\",\"email\":\"\"\x7d",
          .connError, .resp 204 ""⟩ = .ok r :=
  ⟨by decide, C3_sync_profile_best_effort "http://dir" "sb" [] (some "Bearer tkn")
    ⟨.resp 200 "\x7b\"id\":\"u1\",\"email\":\"\"\x7d",
      .connError, .resp 204 ""⟩ (by decide)⟩

/-- **C3 counterexample.** With a valid bearer token and the AuthDB
who-am-I endpoint unreachable, the unguarded `await client.get(...)`
raises out of the handler (FastAPI returns a 500), contradicting "never
surfaces an error status to the caller". -/
theorem C3_sync_profile_unreachable_counterexample :
    auth_sync_profile "http://dir" "sb" [] (some "Bearer tkn")
      ⟨.connError, .resp 200 "", .resp 200 ""⟩ = .error () := by decide

/-! ## Lossy UTF-8 decoding agrees with strict decoding on valid input -/

theorem utf8EncodeChar_bounded (c : Char) : ∀ b ∈ utf8EncodeChar c, b < 256 := by
  intro b hb
  have hv : c.toNat < 0x110000 := by
    rcases char_toNat_valid c with h | ⟨h1, h2⟩ <;> omega
  unfold utf8EncodeChar at hb
  split at hb
  · simp at hb
    omega
  · split at hb
    · simp at hb
      omega
    · split at hb
      · simp at hb
        omega
      · simp at hb
        omega

theorem utf8Encode_bounded (s : List Char) : ∀ b ∈ utf8Encode s, b < 256 := by
  intro b hb
  simp only [utf8Encode, List.mem_flatMap] at hb
  obtain ⟨c, _, hbc⟩ := hb
  exact utf8EncodeChar_bounded c b hbc

theorem utf8DecodeReplaceF_encode (s : List Char) (fuel : Nat)
    (h : s.length ≤ fuel) :
    utf8DecodeReplaceF fuel (utf8Encode s) = s := by
  induction s generalizing fuel with
  | nil =>
    show utf8DecodeReplaceF fuel [] = []
    cases fuel <;> rfl
  | cons c cs ih =>
    cases fuel with
    | zero => simp at h
    | succ f =>
      have henc : utf8Encode (c :: cs) = utf8EncodeChar c ++ utf8Encode cs := by
        simp [utf8Encode]
      obtain ⟨b, bs, hb⟩ : ∃ b bs, utf8EncodeChar c = b :: bs := by
        cases hce : utf8EncodeChar c with
        | nil => exact absurd hce (utf8EncodeChar_ne_nil c)
        | cons b bs => exact ⟨b, bs, rfl⟩
      have hone := utf8DecodeOne_encodeChar c (utf8Encode cs)
      rw [hb, List.cons_append] at hone
      rw [henc, hb, List.cons_append]
      show (match utf8DecodeOne (b :: (bs ++ utf8Encode cs)) with
        | some (c2, rest) => c2 :: utf8DecodeReplaceF f rest
        | none => Char.ofNat 0xFFFD :: utf8DecodeReplaceF f (bs ++ utf8Encode cs)) =
        c :: cs
      rw [hone]
      dsimp only
      rw [ih f (by simpa using h)]

theorem utf8DecodeReplace_encode (s : List Char) :
    utf8DecodeReplace (utf8Encode s) = s :=
  utf8DecodeReplaceF_encode s (utf8Encode s).length (utf8Encode_length_ge s)

/-! ## Percent-codec round trips -/

/-- Proof-side form of the byte encoder inside `pyQuoteWith []`. -/
def quoteAllByte (b : Nat) : List Char :=
  if isAlwaysSafeByte b then [Char.ofNat b] else percentByte b

theorem pyQuoteAll_eq (s : String) :
    pyQuoteAll s = ((utf8Encode s.data).flatMap quoteAllByte).asString := by
  unfold pyQuoteAll pyQuoteWith quoteAllByte
  simp

/-- The `quote_plus` byte encoder as written in `pyQuotePlus`. -/
def quotePlusByteRaw (b : Nat) : List Char :=
  if b = 32 then ['+']
  else if isAlwaysSafeByte b then [Char.ofNat b]
  else percentByte b

theorem pyQuotePlus_eq (s : String) :
    pyQuotePlus s = ((utf8Encode s.data).flatMap quotePlusByteRaw).asString := by
  unfold pyQuotePlus quotePlusByteRaw
  rfl

/-- The `quote_plus` byte encoder after `unquote_plus` maps `+` back to a
space. -/
def quotePlusByteSp (b : Nat) : List Char :=
  if b = 32 then [' ']
  else if isAlwaysSafeByte b then [Char.ofNat b]
  else percentByte b

theorem safeByte_lt128 (b : Nat) (h : isAlwaysSafeByte b = true) : b < 128 := by
  simp only [isAlwaysSafeByte, Bool.or_eq_true, Bool.and_eq_true,
    decide_eq_true_eq] at h
  omega

theorem safeByte_ne37 (b : Nat) (h : isAlwaysSafeByte b = true) : b ≠ 37 := by
  intro hb
  subst hb
  exact absurd h (by decide)

theorem safeByte_ne43 (b : Nat) (h : isAlwaysSafeByte b = true) : b ≠ 43 := by
  intro hb
  subst hb
  exact absurd h (by decide)

theorem charOfNat_toNat_ascii (b : Nat) (h : b < 128) :
    (Char.ofNat b).toNat = b :=
  charOfNat_toNat_valid b (Or.inl (by omega))

theorem hexDigitVal_hexUpper (v : Nat) (h : v < 16) :
    hexDigitVal (hexUpperChar v) = some v := by
  interval_cases v <;> decide

theorem hexUpper_lt128 (v : Nat) (h : v < 16) : (hexUpperChar v).toNat < 128 := by
  interval_cases v <;> decide

theorem hexUpper_ne_plus (v : Nat) (h : v < 16) : hexUpperChar v ≠ '+' := by
  interval_cases v <;> decide

theorem unquoteToBytesF_cons_ne (fuel : Nat) (c : Char) (rest : List Char)
    (h : c ≠ '%') :
    unquoteToBytesF (fuel + 1) (c :: rest) = c.toNat :: unquoteToBytesF fuel rest := by
  conv_lhs => rw [unquoteToBytesF.eq_def]
  dsimp only
  rw [if_neg h]

theorem unquoteToBytesF_percent (fuel : Nat) (b : Nat) (rest : List Char)
    (hb : b < 256) :
    unquoteToBytesF (fuel + 1) (percentByte b ++ rest) =
      b :: unquoteToBytesF fuel rest := by
  show unquoteToBytesF (fuel + 1)
    ('%' :: hexUpperChar (b / 16) :: hexUpperChar (b % 16) :: rest) = _
  conv_lhs => rw [unquoteToBytesF.eq_def]
  dsimp only
  rw [if_pos rfl]
  rw [hexDigitVal_hexUpper (b / 16) (by omega), hexDigitVal_hexUpper (b % 16) (by omega)]
  dsimp only
  rw [show 16 * (b / 16) + b % 16 = b from by omega]

/-- Each percent-encoder byte image is a lone non-`%` character carrying
the byte's code, or a full `%XX` escape. -/
def encByteOk (enc : Nat → List Char) : Prop :=
  ∀ b, b < 256 →
    (∃ c, enc b = [c] ∧ c ≠ '%' ∧ c.toNat = b) ∨ enc b = percentByte b

theorem quoteAllByte_spec : encByteOk quoteAllByte := by
  intro b hb
  unfold quoteAllByte
  by_cases hs : isAlwaysSafeByte b = true
  · left
    refine ⟨Char.ofNat b, by rw [if_pos hs], ?_,
      charOfNat_toNat_ascii b (safeByte_lt128 b hs)⟩
    intro he
    have ht := congrArg Char.toNat he
    rw [charOfNat_toNat_ascii b (safeByte_lt128 b hs)] at ht
    exact safeByte_ne37 b hs (by simpa using ht)
  · right
    rw [if_neg hs]

theorem quotePlusByteSp_spec : encByteOk quotePlusByteSp := by
  intro b hb
  unfold quotePlusByteSp
  by_cases h32 : b = 32
  · left
    subst h32
    exact ⟨' ', by rw [if_pos rfl], by decide, by decide⟩
  · rw [if_neg h32]
    by_cases hs : isAlwaysSafeByte b = true
    · left
      refine ⟨Char.ofNat b, by rw [if_pos hs], ?_,
        charOfNat_toNat_ascii b (safeByte_lt128 b hs)⟩
      intro he
      have ht := congrArg Char.toNat he
      rw [charOfNat_toNat_ascii b (safeByte_lt128 b hs)] at ht
      exact safeByte_ne37 b hs (by simpa using ht)
    · right
      rw [if_neg hs]

theorem unquoteToBytesF_enc (enc : Nat → List Char) (henc : encByteOk enc)
    (bs : List Nat) (h : ∀ b ∈ bs, b < 256) (fuel : Nat)
    (hf : (bs.flatMap enc).length ≤ fuel) :
    unquoteToBytesF fuel (bs.flatMap enc) = bs := by
  induction bs generalizing fuel with
  | nil =>
    rw [List.flatMap_nil]
    cases fuel <;> rfl
  | cons b rest ih =>
    have hb := h b (by simp)
    have hrest : ∀ x ∈ rest, x < 256 := fun x hx => h x (by simp [hx])
    rw [List.flatMap_cons]
    rcases henc b hb with ⟨c, hc1, hc2, hc3⟩ | hp
    · rw [hc1, List.singleton_append]
      cases fuel with
      | zero =>
        rw [List.flatMap_cons, hc1] at hf
        simp at hf
      | succ f =>
        rw [unquoteToBytesF_cons_ne f c _ hc2, hc3,
          ih hrest f (by
            rw [List.flatMap_cons, hc1] at hf
            simp only [List.length_append, List.length_cons, List.length_nil] at hf
            omega)]
    · rw [hp]
      cases fuel with
      | zero =>
        rw [List.flatMap_cons, hp] at hf
        unfold percentByte at hf
        simp at hf
      | succ f =>
        rw [unquoteToBytesF_percent f b _ hb,
          ih hrest f (by
            rw [List.flatMap_cons, hp] at hf
            unfold percentByte at hf
            simp only [List.length_append, List.length_cons, List.length_nil] at hf
            omega)]

theorem unquoteToBytes_quoteAll (bs : List Nat) (h : ∀ b ∈ bs, b < 256) :
    unquoteToBytes (bs.flatMap quoteAllByte) = bs :=
  unquoteToBytesF_enc quoteAllByte quoteAllByte_spec bs h _ (Nat.le_refl _)

theorem unquoteToBytes_quotePlusSp (bs : List Nat) (h : ∀ b ∈ bs, b < 256) :
    unquoteToBytes (bs.flatMap quotePlusByteSp) = bs :=
  unquoteToBytesF_enc quotePlusByteSp quotePlusByteSp_spec bs h _ (Nat.le_refl _)

theorem quoteAllByte_ascii (b : Nat) (hb : b < 256) :
    ∀ c ∈ quoteAllByte b, c.toNat < 128 := by
  intro c hc
  unfold quoteAllByte at hc
  by_cases hs : isAlwaysSafeByte b = true
  · rw [if_pos hs] at hc
    simp at hc
    subst hc
    rw [charOfNat_toNat_ascii b (safeByte_lt128 b hs)]
    exact safeByte_lt128 b hs
  · rw [if_neg hs] at hc
    unfold percentByte at hc
    simp at hc
    rcases hc with rfl | rfl | rfl
    · decide
    · exact hexUpper_lt128 _ (by omega)
    · exact hexUpper_lt128 _ (by omega)

theorem quotePlusByteSp_ascii (b : Nat) (hb : b < 256) :
    ∀ c ∈ quotePlusByteSp b, c.toNat < 128 := by
  intro c hc
  unfold quotePlusByteSp at hc
  by_cases h32 : b = 32
  · rw [if_pos h32] at hc
    simp at hc
    subst hc
    decide
  · rw [if_neg h32] at hc
    by_cases hs : isAlwaysSafeByte b = true
    · rw [if_pos hs] at hc
      simp at hc
      subst hc
      rw [charOfNat_toNat_ascii b (safeByte_lt128 b hs)]
      exact safeByte_lt128 b hs
    · rw [if_neg hs] at hc
      unfold percentByte at hc
      simp at hc
      rcases hc with rfl | rfl | rfl
      · decide
      · exact hexUpper_lt128 _ (by omega)
      · exact hexUpper_lt128 _ (by omega)

theorem pyUnquoteF_nil (fuel : Nat) : pyUnquoteF fuel [] = [] := by
  cases fuel <;> rfl

theorem pyUnquoteF_ascii (c : Char) (rest : List Char)
    (h : ∀ d ∈ c :: rest, d.toNat < 128) (fuel : Nat) :
    pyUnquoteF (fuel + 1) (c :: rest) =
      utf8DecodeReplace (unquoteToBytes (c :: rest)) := by
  unfold pyUnquoteF
  rw [if_pos (h c (by simp))]
  have hrun : (c :: rest).takeWhile (fun d => decide (d.toNat < 128)) = c :: rest :=
    List.takeWhile_eq_self_iff.mpr (fun x hx => decide_eq_true (h x hx))
  rw [hrun]
  dsimp only
  rw [List.drop_length, pyUnquoteF_nil, List.append_nil]

theorem pyUnquote_of_ascii (l : List Char) (h : ∀ c ∈ l, c.toNat < 128) :
    pyUnquoteF l.length l = utf8DecodeReplace (unquoteToBytes l) := by
  cases l with
  | nil => rfl
  | cons c rest => exact pyUnquoteF_ascii c rest h rest.length

theorem pyUnquote_quoteAll (x : String) : pyUnquote (pyQuoteAll x) = x := by
  rw [pyQuoteAll_eq]
  show (pyUnquoteF ((utf8Encode x.data).flatMap quoteAllByte).length
      ((utf8Encode x.data).flatMap quoteAllByte)).asString = x
  rw [pyUnquote_of_ascii _ (by
    intro c hc
    rw [List.mem_flatMap] at hc
    obtain ⟨b, hbmem, hcb⟩ := hc
    exact quoteAllByte_ascii b (utf8Encode_bounded x.data b hbmem) c hcb)]
  rw [unquoteToBytes_quoteAll _ (utf8Encode_bounded x.data)]
  rw [utf8DecodeReplace_encode]
  exact asString_data x

theorem pyUnquotePlus_quotePlus (x : String) :
    pyUnquotePlus (pyQuotePlus x) = x := by
  unfold pyUnquotePlus
  rw [pyQuotePlus_eq]
  show pyUnquote (List.asString ((((utf8Encode x.data).flatMap quotePlusByteRaw)).map
      (fun c => if c = '+' then ' ' else c))) = x
  have hmap : (((utf8Encode x.data).flatMap quotePlusByteRaw)).map
      (fun c => if c = '+' then ' ' else c) =
      (utf8Encode x.data).flatMap quotePlusByteSp := by
    rw [List.map_flatMap]
    apply List.flatMap_congr
    intro b hbmem
    have hb := utf8Encode_bounded x.data b hbmem
    unfold quotePlusByteRaw quotePlusByteSp
    by_cases h32 : b = 32
    · subst h32
      simp
    · rw [if_neg h32]
      by_cases hs : isAlwaysSafeByte b = true
      · rw [if_pos hs]
        have h128 := safeByte_lt128 b hs
        have hne : Char.ofNat b ≠ '+' := by
          intro he
          have ht := congrArg Char.toNat he
          rw [charOfNat_toNat_ascii b h128] at ht
          exact safeByte_ne43 b hs (by simpa using ht)
        simp [hne, h32]
      · rw [if_neg hs]
        unfold percentByte
        have hne1 : hexUpperChar (b / 16) ≠ '+' := hexUpper_ne_plus _ (by omega)
        have hne2 : hexUpperChar (b % 16) ≠ '+' := hexUpper_ne_plus _ (by omega)
        simp [hne1, hne2, h32]
  rw [hmap]
  unfold pyUnquote
  show (pyUnquoteF ((utf8Encode x.data).flatMap quotePlusByteSp).length
      ((utf8Encode x.data).flatMap quotePlusByteSp)).asString = x
  rw [pyUnquote_of_ascii _ (by
    intro c hc
    rw [List.mem_flatMap] at hc
    obtain ⟨b, hbmem, hcb⟩ := hc
    exact quotePlusByteSp_ascii b (utf8Encode_bounded x.data b hbmem) c hcb)]
  rw [unquoteToBytes_quotePlusSp _ (utf8Encode_bounded x.data)]
  rw [utf8DecodeReplace_encode]
  exact asString_data x

/-! ## Cookie decode helpers -/

theorem pyStartsWith_append (pre s2 : String) :
    pyStartsWith (pre ++ s2) pre = true := by
  show pre.data.isPrefixOf (pre.data ++ s2.data) = true
  rw [List.isPrefixOf_iff_prefix]
  exact List.prefix_append pre.data s2.data

theorem pyStartsWith_head_ne (s2 : String) (c : Char) (r : List Char)
    (hd : s2.data = c :: r) (hc : c ≠ 'b') :
    pyStartsWith s2 b64Marker = false := by
  show List.isPrefixOf (String.data "base64-") s2.data = false
  rw [hd]
  show (('b' == c) && List.isPrefixOf ['a', 's', 'e', '6', '4', '-'] r) = false
  rw [beq_eq_false_iff_ne.mpr (Ne.symm hc), Bool.false_and]

theorem drop7_marker (s2 : String) : ("base64-" ++ s2).drop 7 = s2 := by
  rw [String.drop_eq]
  show String.mk (("base64-".data ++ s2.data).drop 7) = s2
  simp

theorem decode_setAuthCookie (s : Json) (hval : Json.validb s = true) :
    _decode_cookie_value (setAuthCookieValue s) = some s := by
  unfold _decode_cookie_value setAuthCookieValue
  dsimp only
  rw [show pyStartsWith
      ("base64-" ++ (b64UrlEncodeNoPad (utf8Encode (jsonSerialize s).data)).asString)
      b64Marker = true from pyStartsWith_append "base64-" _]
  rw [if_pos rfl]
  rw [drop7_marker]
  have heq : (padB64
      ((b64UrlEncodeNoPad (utf8Encode (jsonSerialize s).data)).asString)).data =
      padB64Chars (b64UrlEncodeNoPad (utf8Encode (jsonSerialize s).data)) := rfl
  rw [heq, b64_roundtrip _ (utf8Encode_bounded _)]
  dsimp only
  rw [utf8Decode_encode]
  dsimp only
  rw [asString_data, jsonParse_serialize s hval]

theorem parseScalar_percent (l : List Char) : parseScalar ('%' :: l) = none := by
  rw [parseScalar.eq_def]
  dsimp only
  rw [if_neg (by decide), if_neg (by decide), if_neg (by decide), if_neg (by decide),
    if_neg (by decide)]

theorem jsonParseChars_percent (l : List Char) : jsonParseChars ('%' :: l) = none := by
  unfold jsonParseChars
  dsimp only
  rw [dropWhile_cons_false (by decide)]
  have h1 : parseValueF (2 * ('%' :: l).length + 2) ('%' :: l) = none := by
    rw [show 2 * ('%' :: l).length + 2 = 2 * ('%' :: l).length + 1 + 1 from by omega]
    rw [parseValueF_succ_other (2 * ('%' :: l).length + 1) '%' l (by decide) (by decide),
      parseScalar_percent]
  rw [h1]

theorem serialize_obj_data (m : JsonObj) :
    (jsonSerialize (Json.obj m)).data =
      Char.ofNat 123 :: (Json.serMembers m ++ [Char.ofNat 125]) := rfl

theorem startsWith_ser_obj (m : JsonObj) :
    pyStartsWith (jsonSerialize (Json.obj m)) b64Marker = false :=
  pyStartsWith_head_ne _ _ _ (serialize_obj_data m) (by decide)

theorem quoteAll_obj_head (m : JsonObj) :
    (pyQuoteAll (jsonSerialize (Json.obj m))).data =
      '%' :: ('7' :: 'B' ::
        (utf8Encode (Json.serMembers m ++ [Char.ofNat 125])).flatMap quoteAllByte) := by
  rw [pyQuoteAll_eq]
  show (utf8Encode ((jsonSerialize (Json.obj m)).data)).flatMap quoteAllByte = _
  rw [serialize_obj_data]
  show (utf8EncodeChar (Char.ofNat 123) ++
      utf8Encode (Json.serMembers m ++ [Char.ofNat 125])).flatMap quoteAllByte = _
  rw [show utf8EncodeChar (Char.ofNat 123) = [123] from by decide]
  show quoteAllByte 123 ++
      (utf8Encode (Json.serMembers m ++ [Char.ofNat 125])).flatMap quoteAllByte = _
  rw [show quoteAllByte 123 = ['%', '7', 'B'] from by decide]
  rfl

/-- **C5.** Decoding inverts the bootstrap page's `setAuthCookie`
encoding (serialize, base64url-encode without padding, prefix the
`"base64-"` marker) on every valid session value. -/
theorem C5_cookie_roundtrip (s : Json) (hval : Json.validb s = true) :
    _decode_cookie_value (setAuthCookieValue s) = some s :=
  decode_setAuthCookie s hval

theorem C5_cookie_roundtrip_witness :
    Json.validb (Json.mkObj [("access_token", Json.str "t")]) = true ∧
    _decode_cookie_value
        (setAuthCookieValue (Json.mkObj [("access_token", Json.str "t")])) =
      some (Json.mkObj [("access_token", Json.str "t")]) :=
  ⟨by decide, C5_cookie_roundtrip _ (by decide)⟩

/-- **C6.** The three cookie formats of the same session decode to equal
sessions: the `"base64-"`-prefixed base64url encoding, the raw JSON
serialization, and the percent-encoded serialization; and an input on
which all three strategies fail decodes to `none`. -/
theorem C6_decode_strategy_agreement (m : JsonObj)
    (hval : Json.validb (Json.obj m) = true) :
    _decode_cookie_value (setAuthCookieValue (Json.obj m)) = some (Json.obj m) ∧
    _decode_cookie_value (jsonSerialize (Json.obj m)) = some (Json.obj m) ∧
    _decode_cookie_value (pyQuoteAll (jsonSerialize (Json.obj m))) =
      some (Json.obj m) ∧
    _decode_cookie_value "base64-!" = none := by
  refine ⟨decode_setAuthCookie _ hval, ?_, ?_, by decide⟩
  · unfold _decode_cookie_value
    dsimp only
    rw [startsWith_ser_obj m]
    rw [if_neg (show ¬(false = true) from by decide)]
    dsimp only
    rw [jsonParse_serialize _ hval]
  · unfold _decode_cookie_value
    dsimp only
    rw [pyStartsWith_head_ne _ _ _ (quoteAll_obj_head m) (by decide)]
    rw [if_neg (show ¬(false = true) from by decide)]
    dsimp only
    have hjq : jsonParse (pyQuoteAll (jsonSerialize (Json.obj m))) = none := by
      unfold jsonParse
      rw [quoteAll_obj_head m]
      exact jsonParseChars_percent _
    rw [hjq]
    dsimp only
    rw [pyUnquote_quoteAll, jsonParse_serialize _ hval]

theorem C6_decode_strategy_agreement_witness :
    Json.validb (Json.obj (JsonObj.cons "access_token" (Json.str "t")
        JsonObj.nil)) = true ∧
    (_decode_cookie_value (setAuthCookieValue (Json.obj (JsonObj.cons "access_token"
        (Json.str "t") JsonObj.nil))) =
      some (Json.obj (JsonObj.cons "access_token" (Json.str "t") JsonObj.nil)) ∧
    _decode_cookie_value (jsonSerialize (Json.obj (JsonObj.cons "access_token"
        (Json.str "t") JsonObj.nil))) =
      some (Json.obj (JsonObj.cons "access_token" (Json.str "t") JsonObj.nil)) ∧
    _decode_cookie_value (pyQuoteAll (jsonSerialize (Json.obj (JsonObj.cons
        "access_token" (Json.str "t") JsonObj.nil)))) =
      some (Json.obj (JsonObj.cons "access_token" (Json.str "t") JsonObj.nil)) ∧
    _decode_cookie_value "base64-!" = none) :=
  ⟨by decide, C6_decode_strategy_agreement
    (JsonObj.cons "access_token" (Json.str "t") JsonObj.nil) (by decide)⟩

/-! ## Query-string round trip (`parse_qs` of `urlencode(..., doseq=True)`) -/

theorem safeByte_ne38 (b : Nat) (h : isAlwaysSafeByte b = true) : b ≠ 38 := by
  intro hb
  subst hb
  exact absurd h (by decide)

theorem safeByte_ne61 (b : Nat) (h : isAlwaysSafeByte b = true) : b ≠ 61 := by
  intro hb
  subst hb
  exact absurd h (by decide)

theorem hexUpper_ne_amp (v : Nat) (h : v < 16) : hexUpperChar v ≠ '&' := by
  interval_cases v <;> decide

theorem hexUpper_ne_eqs (v : Nat) (h : v < 16) : hexUpperChar v ≠ '=' := by
  interval_cases v <;> decide

theorem quotePlus_no_amp_eqs (s : String) :
    ∀ c ∈ (pyQuotePlus s).data, c ≠ '&' ∧ c ≠ '=' := by
  intro c hc
  rw [pyQuotePlus_eq] at hc
  have hc2 : c ∈ (utf8Encode s.data).flatMap quotePlusByteRaw := hc
  rw [List.mem_flatMap] at hc2
  obtain ⟨b, hbmem, hcb⟩ := hc2
  have hb := utf8Encode_bounded s.data b hbmem
  unfold quotePlusByteRaw at hcb
  by_cases h32 : b = 32
  · rw [if_pos h32] at hcb
    simp at hcb
    subst hcb
    exact ⟨by decide, by decide⟩
  · rw [if_neg h32] at hcb
    by_cases hs : isAlwaysSafeByte b = true
    · rw [if_pos hs] at hcb
      simp at hcb
      subst hcb
      have h128 := safeByte_lt128 b hs
      constructor
      · intro he
        have ht := congrArg Char.toNat he
        rw [charOfNat_toNat_ascii b h128] at ht
        exact safeByte_ne38 b hs (by simpa using ht)
      · intro he
        have ht := congrArg Char.toNat he
        rw [charOfNat_toNat_ascii b h128] at ht
        exact safeByte_ne61 b hs (by simpa using ht)
    · rw [if_neg hs] at hcb
      unfold percentByte at hcb
      simp at hcb
      rcases hcb with rfl | rfl | rfl
      · exact ⟨by decide, by decide⟩
      · exact ⟨hexUpper_ne_amp _ (by omega), hexUpper_ne_eqs _ (by omega)⟩
      · exact ⟨hexUpper_ne_amp _ (by omega), hexUpper_ne_eqs _ (by omega)⟩

theorem splitOnChar_ne_nil (sep : Char) (l : List Char) :
    splitOnChar sep l ≠ [] := by
  cases l with
  | nil => simp [splitOnChar]
  | cons c rest =>
    unfold splitOnChar
    cases splitOnChar sep rest with
    | nil => simp
    | cons p ps =>
      dsimp only
      by_cases hc : c = sep
      · rw [if_pos hc]
        simp
      · rw [if_neg hc]
        simp

theorem splitOnChar_no_sep (sep : Char) (l : List Char) (h : sep ∉ l) :
    splitOnChar sep l = [l] := by
  induction l with
  | nil => rfl
  | cons c rest ih =>
    have hc : c ≠ sep := fun he => h (he ▸ List.mem_cons_self c rest)
    have hrest : sep ∉ rest := fun hm => h (List.mem_cons_of_mem c hm)
    unfold splitOnChar
    rw [ih hrest]
    dsimp only
    rw [if_neg hc]

theorem splitOnChar_append (sep : Char) (p l : List Char) (h : sep ∉ p) :
    splitOnChar sep (p ++ sep :: l) = p :: splitOnChar sep l := by
  induction p with
  | nil =>
    show splitOnChar sep (sep :: l) = [] :: splitOnChar sep l
    conv_lhs => unfold splitOnChar
    cases hs : splitOnChar sep l with
    | nil => exact absurd hs (splitOnChar_ne_nil sep l)
    | cons piece pieces =>
      dsimp only
      rw [if_pos rfl]
  | cons c p2 ih =>
    have hc : c ≠ sep := fun he => h (he ▸ List.mem_cons_self c p2)
    have hp : sep ∉ p2 := fun hm => h (List.mem_cons_of_mem c hm)
    show splitOnChar sep (c :: (p2 ++ sep :: l)) = (c :: p2) :: splitOnChar sep l
    conv_lhs => unfold splitOnChar
    rw [ih hp]
    dsimp only
    rw [if_neg hc]

theorem splitOnChar_intercal (sep : Char) (ps : List (List Char))
    (h : ∀ p ∈ ps, sep ∉ p) (hne : ps ≠ []) :
    splitOnChar sep (intercalChar sep ps) = ps := by
  induction ps with
  | nil => exact absurd rfl hne
  | cons p rest ih =>
    cases rest with
    | nil =>
      show splitOnChar sep p = [p]
      exact splitOnChar_no_sep sep p (h p (by simp))
    | cons q rest2 =>
      show splitOnChar sep (p ++ sep :: intercalChar sep (q :: rest2)) =
        p :: q :: rest2
      rw [splitOnChar_append sep p _ (h p (by simp))]
      rw [ih (fun x hx => h x (by simp [hx])) (by simp)]

theorem splitAtFirst_append (sep : Char) (a b : List Char) (h : sep ∉ a) :
    splitAtFirst sep (a ++ sep :: b) = some (a, b) := by
  induction a with
  | nil =>
    show splitAtFirst sep (sep :: b) = some ([], b)
    unfold splitAtFirst
    rw [if_pos rfl]
  | cons c a2 ih =>
    have hc : c ≠ sep := fun he => h (he ▸ List.mem_cons_self c a2)
    have ha : sep ∉ a2 := fun hm => h (List.mem_cons_of_mem c hm)
    show splitAtFirst sep (c :: (a2 ++ sep :: b)) = some (c :: a2, b)
    unfold splitAtFirst
    rw [if_neg hc, ih ha]
    rfl

theorem qsPiece_enc (k v : String) :
    qsPiece ((pyQuotePlus k).data ++ '=' :: (pyQuotePlus v).data) = some (k, v) := by
  unfold qsPiece
  rw [if_neg (by simp)]
  rw [splitAtFirst_append '=' _ _ (fun hm => (quotePlus_no_amp_eqs k '=' hm).2 rfl)]
  dsimp only
  rw [asString_data, asString_data, pyUnquotePlus_quotePlus, pyUnquotePlus_quotePlus]

/-- The flat key-value pair list a grouped dict denotes. -/
def qsPairs (g : List (String × List String)) : List (String × String) :=
  g.flatMap fun kv => kv.2.map fun v => (kv.1, v)

theorem filterMap_qsPiece (g : List (String × List String)) :
    ((g.flatMap fun kv => kv.2.map fun v =>
      (pyQuotePlus kv.1).data ++ '=' :: (pyQuotePlus v).data).filterMap qsPiece) =
    qsPairs g := by
  induction g with
  | nil => rfl
  | cons kv g2 ih =>
    obtain ⟨k, vs⟩ := kv
    rw [show qsPairs ((k, vs) :: g2) =
      (vs.map fun v => (k, v)) ++ qsPairs g2 from rfl]
    rw [List.flatMap_cons, List.filterMap_append, ih]
    congr 1
    induction vs with
    | nil => rfl
    | cons v vs2 ihv =>
      rw [List.map_cons, List.map_cons, List.filterMap_cons, qsPiece_enc]
      rw [ihv]

theorem parseQsl_urlencode (g : List (String × List String)) :
    parseQsl (pyUrlencodeDoseq g).data = qsPairs g := by
  show (splitOnChar '&' (intercalChar '&' (g.flatMap fun kv =>
      kv.2.map fun v =>
        (pyQuotePlus kv.1).data ++ '=' :: (pyQuotePlus v).data))).filterMap
      qsPiece = qsPairs g
  cases hg : g.flatMap (fun kv => kv.2.map fun v =>
      (pyQuotePlus kv.1).data ++ '=' :: (pyQuotePlus v).data) with
  | nil =>
    have hq : qsPairs g = [] := by
      unfold qsPairs
      rw [List.flatMap_eq_nil_iff]
      intro kv hkv
      have h2 := List.flatMap_eq_nil_iff.mp hg kv hkv
      have h3 : kv.2 = [] := by
        cases hv : kv.2 with
        | nil => rfl
        | cons a as =>
          rw [hv, List.map_cons] at h2
          simp at h2
      rw [h3]
      rfl
    rw [hq]
    rfl
  | cons p ps =>
    rw [← hg]
    have hfree : ∀ piece ∈ g.flatMap (fun kv => kv.2.map fun v =>
        (pyQuotePlus kv.1).data ++ '=' :: (pyQuotePlus v).data), '&' ∉ piece := by
      intro piece hpm
      rw [List.mem_flatMap] at hpm
      obtain ⟨kv, _, hpm2⟩ := hpm
      rw [List.mem_map] at hpm2
      obtain ⟨v, _, rfl⟩ := hpm2
      intro hmem
      rcases List.mem_append.mp hmem with hA | hB
      · exact (quotePlus_no_amp_eqs kv.1 '&' hA).1 rfl
      · rcases List.mem_cons.mp hB with he | hB2
        · exact absurd he (by decide)
        · exact (quotePlus_no_amp_eqs v '&' hB2).1 rfl
    rw [splitOnChar_intercal '&' _ hfree (by rw [hg]; simp)]
    exact filterMap_qsPiece g

theorem groupAdd_not_mem (k : String) (v : String)
    (acc : List (String × List String)) (h : k ∉ acc.map Prod.fst) :
    groupAdd k v acc = acc ++ [(k, [v])] := by
  induction acc with
  | nil => rfl
  | cons p rest ih =>
    obtain ⟨k0, vs0⟩ := p
    have h0 : k0 ≠ k := by
      intro he
      exact h (by simp [he])
    show (if k0 = k then (k0, vs0 ++ [v]) :: rest
      else (k0, vs0) :: groupAdd k v rest) = _
    rw [if_neg h0, ih (fun hm => h (by simp [hm]))]
    rfl

theorem groupAdd_mem_last (k : String) (v : String) (L : List String)
    (acc : List (String × List String)) (h : k ∉ acc.map Prod.fst) :
    groupAdd k v (acc ++ [(k, L)]) = acc ++ [(k, L ++ [v])] := by
  induction acc with
  | nil =>
    show (if k = k then (k, L ++ [v]) :: [] else _) = _
    rw [if_pos rfl]
    rfl
  | cons p rest ih =>
    obtain ⟨k0, vs0⟩ := p
    have h0 : k0 ≠ k := by
      intro he
      exact h (by simp [he])
    show (if k0 = k then _ else (k0, vs0) :: groupAdd k v (rest ++ [(k, L)])) = _
    rw [if_neg h0, ih (fun hm => h (by simp [hm]))]
    rfl

theorem foldl_groupAdd_run (k : String) (vs : List String) (L : List String)
    (acc : List (String × List String)) (h : k ∉ acc.map Prod.fst) :
    ((vs.map fun v => (k, v)).foldl
      (fun acc2 kv => groupAdd kv.1 kv.2 acc2) (acc ++ [(k, L)])) =
    acc ++ [(k, L ++ vs)] := by
  induction vs generalizing L with
  | nil => simp
  | cons v vs2 ih =>
    rw [List.map_cons, List.foldl_cons]
    show ((vs2.map fun v => (k, v)).foldl _ (groupAdd k v (acc ++ [(k, L)]))) = _
    rw [groupAdd_mem_last k v L acc h, ih (L ++ [v])]
    simp

theorem foldl_groupAdd_pairs (g : List (String × List String)) :
    ∀ acc : List (String × List String),
    ((g.map Prod.fst).Nodup) → (∀ kv ∈ g, kv.2 ≠ []) →
    (∀ k ∈ g.map Prod.fst, k ∉ acc.map Prod.fst) →
    ((qsPairs g).foldl (fun acc2 kv => groupAdd kv.1 kv.2 acc2) acc) = acc ++ g := by
  induction g with
  | nil =>
    intro acc _ _ _
    simp [qsPairs]
  | cons kv g2 ih =>
    intro acc hnodup hvals hdisj
    obtain ⟨k, vs⟩ := kv
    rw [List.map_cons] at hnodup
    obtain ⟨hknotin, hnodup2⟩ := List.nodup_cons.mp hnodup
    cases vs with
    | nil => exact absurd rfl (hvals (k, []) (by simp))
    | cons v0 vs2 =>
      rw [show qsPairs ((k, v0 :: vs2) :: g2) =
        ((k, v0) :: vs2.map fun v => (k, v)) ++ qsPairs g2 from rfl]
      rw [List.foldl_append, List.foldl_cons]
      have hkacc : k ∉ acc.map Prod.fst := hdisj k (by simp)
      rw [show groupAdd (k, v0).1 (k, v0).2 acc = acc ++ [(k, [v0])] from
        groupAdd_not_mem k v0 acc hkacc]
      rw [foldl_groupAdd_run k vs2 [v0] acc hkacc]
      rw [show ([v0] ++ vs2 : List String) = v0 :: vs2 from rfl]
      rw [ih (acc ++ [(k, v0 :: vs2)]) hnodup2
        (fun kv2 hkv2 => hvals kv2 (by simp [hkv2]))
        (by
          intro k2 hk2 hmem
          rw [List.map_append, List.mem_append] at hmem
          rcases hmem with hm1 | hm2
          · exact hdisj k2 (by simp [hk2]) hm1
          · simp at hm2
            subst hm2
            exact hknotin hk2)]
      simp

theorem parseQs_urlencode (g : List (String × List String))
    (hnodup : (g.map Prod.fst).Nodup) (hvals : ∀ kv ∈ g, kv.2 ≠ []) :
    parseQs (pyUrlencodeDoseq g).data = g := by
  unfold parseQs
  rw [parseQsl_urlencode g]
  have h := foldl_groupAdd_pairs g [] hnodup hvals (by simp)
  simpa using h

theorem groupAdd_wf (k : String) (v : String)
    (acc : List (String × List String)) (hnodup : (acc.map Prod.fst).Nodup)
    (hvals : ∀ kv ∈ acc, kv.2 ≠ []) :
    ((groupAdd k v acc).map Prod.fst).Nodup ∧
    (∀ kv ∈ groupAdd k v acc, kv.2 ≠ []) ∧
    (∀ k2, k2 ∈ (groupAdd k v acc).map Prod.fst ↔
      (k2 = k ∨ k2 ∈ acc.map Prod.fst)) := by
  induction acc with
  | nil =>
    refine ⟨by simp [groupAdd], ?_, by simp [groupAdd]⟩
    intro kv hkv
    simp only [groupAdd, List.mem_singleton] at hkv
    subst hkv
    simp
  | cons p rest ih =>
    obtain ⟨k0, vs0⟩ := p
    rw [List.map_cons] at hnodup
    obtain ⟨hk0, hrest⟩ := List.nodup_cons.mp hnodup
    by_cases h0 : k0 = k
    · subst h0
      rw [show groupAdd k0 v ((k0, vs0) :: rest) = (k0, vs0 ++ [v]) :: rest from by
        show (if k0 = k0 then _ else _) = _
        rw [if_pos rfl]]
      refine ⟨by rw [List.map_cons]; exact List.nodup_cons.mpr ⟨hk0, hrest⟩, ?_, by simp⟩
      intro kv hkv
      rcases List.mem_cons.mp hkv with rfl | hm
      · simp
      · exact hvals kv (by simp [hm])
    · obtain ⟨ih1, ih2, ih3⟩ := ih hrest (fun kv hkv => hvals kv (by simp [hkv]))
      rw [show groupAdd k v ((k0, vs0) :: rest) = (k0, vs0) :: groupAdd k v rest from by
        show (if k0 = k then _ else _) = _
        rw [if_neg h0]]
      refine ⟨?_, ?_, ?_⟩
      · rw [List.map_cons, List.nodup_cons]
        refine ⟨?_, ih1⟩
        intro hm
        rcases (ih3 k0).mp hm with he | hm2
        · exact h0 he
        · exact hk0 hm2
      · intro kv hkv
        rcases List.mem_cons.mp hkv with rfl | hm
        · exact hvals (k0, vs0) (by simp)
        · exact ih2 kv hm
      · intro k2
        rw [List.map_cons, List.mem_cons, ih3 k2]
        constructor
        · rintro (rfl | he | hm)
          · exact .inr (by simp)
          · exact .inl he
          · exact .inr (by simp [hm])
        · rintro (he | hm)
          · exact .inr (.inl he)
          · rw [List.map_cons, List.mem_cons] at hm
            rcases hm with he2 | hm2
            · exact .inl he2
            · exact .inr (.inr hm2)

theorem parseQs_wf (qs : List Char) :
    ((parseQs qs).map Prod.fst).Nodup ∧ ∀ kv ∈ parseQs qs, kv.2 ≠ [] := by
  unfold parseQs
  generalize parseQsl qs = prs
  have hgen : ∀ (acc : List (String × List String)),
      (acc.map Prod.fst).Nodup → (∀ kv ∈ acc, kv.2 ≠ []) →
      ((prs.foldl (fun a kv => groupAdd kv.1 kv.2 a) acc).map Prod.fst).Nodup ∧
      ∀ kv ∈ prs.foldl (fun a kv => groupAdd kv.1 kv.2 a) acc, kv.2 ≠ [] := by
    induction prs with
    | nil => exact fun acc h1 h2 => ⟨h1, h2⟩
    | cons kv prs2 ih =>
      intro acc h1 h2
      rw [List.foldl_cons]
      obtain ⟨g1, g2, _⟩ := groupAdd_wf kv.1 kv.2 acc h1 h2
      exact ih (groupAdd kv.1 kv.2 acc) g1 g2
  exact hgen [] (by simp) (by simp)

theorem qsValues_groupSet_same (k : String) (vs : List String)
    (g : List (String × List String)) :
    qsValues (groupSet k vs g) k = vs := by
  induction g with
  | nil =>
    show qsValues [(k, vs)] k = vs
    unfold qsValues
    rw [List.find?_cons_of_pos _ (by simp)]
    rfl
  | cons p rest ih =>
    obtain ⟨k0, vs0⟩ := p
    by_cases h0 : k0 = k
    · subst h0
      rw [show groupSet k0 vs ((k0, vs0) :: rest) = (k0, vs) :: rest from by
        show (if k0 = k0 then _ else _) = _
        rw [if_pos rfl]]
      unfold qsValues
      rw [List.find?_cons_of_pos _ (by simp)]
      rfl
    · rw [show groupSet k vs ((k0, vs0) :: rest) = (k0, vs0) :: groupSet k vs rest from by
        show (if k0 = k then _ else _) = _
        rw [if_neg h0]]
      unfold qsValues
      rw [List.find?_cons_of_neg _ (by simp [h0])]
      exact ih

theorem qsValues_groupSet_other (k : String) (vs : List String)
    (g : List (String × List String)) (k2 : String) (h : k2 ≠ k) :
    qsValues (groupSet k vs g) k2 = qsValues g k2 := by
  induction g with
  | nil =>
    show qsValues [(k, vs)] k2 = qsValues [] k2
    unfold qsValues
    rw [List.find?_cons_of_neg _ (by simp [Ne.symm h])]
  | cons p rest ih =>
    obtain ⟨k0, vs0⟩ := p
    by_cases h0 : k0 = k
    · subst h0
      rw [show groupSet k0 vs ((k0, vs0) :: rest) = (k0, vs) :: rest from by
        show (if k0 = k0 then _ else _) = _
        rw [if_pos rfl]]
      by_cases h2 : k0 = k2
      · exact absurd h2.symm h
      · unfold qsValues
        rw [List.find?_cons_of_neg _ (by simp [h2]),
          List.find?_cons_of_neg _ (by simp [h2])]
    · rw [show groupSet k vs ((k0, vs0) :: rest) = (k0, vs0) :: groupSet k vs rest from by
        show (if k0 = k then _ else _) = _
        rw [if_neg h0]]
      by_cases h2 : k0 = k2
      · unfold qsValues
        rw [List.find?_cons_of_pos _ (by simp [h2]),
          List.find?_cons_of_pos _ (by simp [h2])]
      · unfold qsValues
        rw [List.find?_cons_of_neg _ (by simp [h2]),
          List.find?_cons_of_neg _ (by simp [h2])]
        exact ih

theorem groupSet_wf (k : String) (vs : List String)
    (g : List (String × List String)) (hvs : vs ≠ [])
    (hnodup : (g.map Prod.fst).Nodup) (hvals : ∀ kv ∈ g, kv.2 ≠ []) :
    ((groupSet k vs g).map Prod.fst).Nodup ∧
    (∀ kv ∈ groupSet k vs g, kv.2 ≠ []) := by
  induction g with
  | nil =>
    refine ⟨by simp [groupSet], ?_⟩
    intro kv hkv
    simp only [groupSet, List.mem_singleton] at hkv
    subst hkv
    exact hvs
  | cons p rest ih =>
    obtain ⟨k0, vs0⟩ := p
    rw [List.map_cons] at hnodup
    obtain ⟨hk0, hrest⟩ := List.nodup_cons.mp hnodup
    by_cases h0 : k0 = k
    · subst h0
      rw [show groupSet k0 vs ((k0, vs0) :: rest) = (k0, vs) :: rest from by
        show (if k0 = k0 then _ else _) = _
        rw [if_pos rfl]]
      refine ⟨by rw [List.map_cons]; exact List.nodup_cons.mpr ⟨hk0, hrest⟩, ?_⟩
      intro kv hkv
      rcases List.mem_cons.mp hkv with rfl | hm
      · exact hvs
      · exact hvals kv (by simp [hm])
    · rw [show groupSet k vs ((k0, vs0) :: rest) = (k0, vs0) :: groupSet k vs rest from by
        show (if k0 = k then _ else _) = _
        rw [if_neg h0]]
      obtain ⟨ih1, ih2⟩ := ih hrest (fun kv hkv => hvals kv (by simp [hkv]))
      refine ⟨?_, ?_⟩
      · rw [List.map_cons, List.nodup_cons]
        refine ⟨?_, ih1⟩
        intro hm
        -- k0 ∈ keys of groupSet k vs rest: it is keys rest or keys rest ++ [k]
        have : k0 ∈ rest.map Prod.fst ∨ k0 = k := by
          clear ih ih1 ih2 hvals hnodup hrest hk0
          induction rest with
          | nil =>
            simp only [groupSet, List.map_cons, List.map_nil,
              List.mem_singleton] at hm
            exact .inr hm
          | cons q rest2 ihq =>
            obtain ⟨kq, vq⟩ := q
            by_cases hq : kq = k
            · subst hq
              rw [show groupSet kq vs ((kq, vq) :: rest2) = (kq, vs) :: rest2 from by
                show (if kq = kq then _ else _) = _
                rw [if_pos rfl]] at hm
              simp only [List.map_cons, List.mem_cons] at hm
              rcases hm with rfl | hm2
              · exact .inl (by simp)
              · exact .inl (by simp [hm2])
            · rw [show groupSet k vs ((kq, vq) :: rest2) =
                (kq, vq) :: groupSet k vs rest2 from by
                show (if kq = k then _ else _) = _
                rw [if_neg hq]] at hm
              simp only [List.map_cons, List.mem_cons] at hm
              rcases hm with rfl | hm2
              · exact .inl (by simp)
              · rcases ihq hm2 with hA | hB
                · exact .inl (by simp [hA])
                · exact .inr hB
        rcases this with hA | hB
        · exact hk0 hA
        · exact h0 hB
      · intro kv hkv
        rcases List.mem_cons.mp hkv with rfl | hm
        · exact hvals (k0, vs0) (by simp)
        · exact ih2 kv hm

/-- **C7.** When the upstream authorize redirect points at the configured
IdP-internal origin, the response is a redirect whose path is the public
IdP proxy path prefixed to the upstream path, whose `redirect_uri` query
parameter is overwritten with the configured exact-match value, and in
which every other query parameter of the upstream Location is
preserved. -/
theorem C7_authorize_rewrite (cfg : AuthorizeCfg) (origin loc : String)
    (sc : List String)
    (hm : (pyUrlparse loc).scheme = (pyUrlparse cfg.entraEmulatorInternalHost).scheme ∧
      (pyUrlparse loc).netloc = (pyUrlparse cfg.entraEmulatorInternalHost).netloc)
    (hloc : loc ≠ "") :
    ∃ newQuery : String,
      auth_authorize cfg origin (some loc) sc =
        .redirect (origin ++ (rstripSlash cfg.entraPublicBase ++ (pyUrlparse loc).path)
          ++ "?" ++ newQuery) sc ∧
      qsValues (parseQs newQuery.data) "redirect_uri" = [cfg.gotrueRedirectUri] ∧
      ∀ k, k ≠ "redirect_uri" →
        qsValues (parseQs newQuery.data) k =
          qsValues (parseQs (pyUrlparse loc).query.data) k := by
  obtain ⟨hnd, hvl⟩ := parseQs_wf (pyUrlparse loc).query.data
  obtain ⟨hnd2, hvl2⟩ := groupSet_wf "redirect_uri" [cfg.gotrueRedirectUri]
    (parseQs (pyUrlparse loc).query.data) (by simp) hnd hvl
  refine ⟨pyUrlencodeDoseq (groupSet "redirect_uri" [cfg.gotrueRedirectUri]
    (parseQs (pyUrlparse loc).query.data)), ?_, ?_, ?_⟩
  · unfold auth_authorize
    rw [if_neg (by simp [truthyStrOpt, hloc])]
    show AuthorizeResponse.redirect (authAuthorizeRewrite cfg origin loc) sc = _
    unfold authAuthorizeRewrite
    rw [if_pos hm]
  · rw [parseQs_urlencode _ hnd2 hvl2]
    exact qsValues_groupSet_same "redirect_uri" [cfg.gotrueRedirectUri] _
  · intro k hk
    rw [parseQs_urlencode _ hnd2 hvl2]
    exact qsValues_groupSet_other "redirect_uri" [cfg.gotrueRedirectUri] _ k hk

theorem C7_authorize_rewrite_witness :
    ((pyUrlparse "http://entra:8005/common/oauth2/v2.0/authorize?a=1").scheme =
      (pyUrlparse "http://entra:8005").scheme ∧
    (pyUrlparse "http://entra:8005/common/oauth2/v2.0/authorize?a=1").netloc =
      (pyUrlparse "http://entra:8005").netloc) ∧
    ∃ newQuery : String,
      auth_authorize ⟨"http://entra:8005", "/idp",
          "http://localhost:8000/auth/v1/callback"⟩ "http://localhost:8000"
        (some "http://entra:8005/common/oauth2/v2.0/authorize?a=1") ["c=1"] =
        .redirect ("http://localhost:8000" ++
          (rstripSlash "/idp" ++
            (pyUrlparse "http://entra:8005/common/oauth2/v2.0/authorize?a=1").path)
          ++ "?" ++ newQuery) ["c=1"] ∧
      qsValues (parseQs newQuery.data) "redirect_uri" =
        ["http://localhost:8000/auth/v1/callback"] ∧
      ∀ k, k ≠ "redirect_uri" →
        qsValues (parseQs newQuery.data) k =
          qsValues (parseQs (pyUrlparse
            "http://entra:8005/common/oauth2/v2.0/authorize?a=1").query.data) k :=
  ⟨by decide, C7_authorize_rewrite
    ⟨"http://entra:8005", "/idp", "http://localhost:8000/auth/v1/callback"⟩
    "http://localhost:8000" "http://entra:8005/common/oauth2/v2.0/authorize?a=1"
    ["c=1"] (by decide) (by decide)⟩

end StaticFrontend
